import Mathlib

/-!
Verification development for a log-analysis engine (`server.py`).

The engine classifies raw log lines (level + timestamp extraction), decides
which lines are error-ish, rewrites lines into normalized templates by a
fixed sequence of regex masks, scores template similarity, and greedily
clusters error-ish lines; a second entry point builds a level/time histogram.

The Python source is embedded shallowly:
* strings are `String` / `List Char`;
* each `re.sub` pass is a left-to-right scanner over the character list
  (all scanners use explicit fuel `length + 1` so that they are structural
  and kernel-evaluable; every step consumes at least one character);
* the similarity scorer (`difflib.SequenceMatcher(None, a, b).ratio()`,
  standard-library code outside this repository) is modelled from the spec:
  ratio = 2*M / T where M is the total length of matching blocks found by a
  greedy recursive longest-common-substring matcher (longest block, ties
  broken by earliest start in `a`, then earliest start in `b`), and T is the
  sum of the two lengths; the value is an exact rational built with `mkRat`;
* floats become exact rationals `ℚ`, machine ints become `Nat`;
* `FileNotFoundError` / `ZeroDivisionError` become an `Except` error type,
  and the filesystem is an `Option (List String)` (the lines of the file
  when it exists).
-/

namespace LogMCP

/-! ### Character classes (ASCII semantics of the regex classes used) -/

/-- Python regex `\w` (word character) on ASCII: letters, digits, underscore. -/
def isWordChar (c : Char) : Bool :=
  c.isAlpha || c.isDigit || c = '_'

/-- Python regex `\s` on ASCII: space, tab, newline, CR, vertical tab, form feed. -/
def isSpaceChar (c : Char) : Bool :=
  c = ' ' || c = '\t' || c = '\n' || c = '\r' || c = '\x0b' || c = '\x0c'

/-- Hex digit class `[0-9a-fA-F]`. -/
def isHexChar (c : Char) : Bool :=
  c.isDigit || ('a' ≤ c && c ≤ 'f') || ('A' ≤ c && c ≤ 'F')

/-- Path segment class `[A-Za-z0-9._-]`. -/
def isPathChar (c : Char) : Bool :=
  c.isAlpha || c.isDigit || c = '.' || c = '_' || c = '-'

/-- True when the list is empty or its first character is not a word
character: this is the trailing `\b` test after a word-character run. -/
def nextNotWord : List Char → Bool
  | [] => true
  | c :: _ => !(isWordChar c)

/-! ### Timestamp regex `TS_RE = \d{4}-\d{2}-\d{2}[ T]\d{2}:\d{2}:\d{2}` -/

/-- Consume exactly `n` decimal digits, accumulating their value. -/
def grabD : Nat → Nat → List Char → Option (Nat × List Char)
  | 0, acc, l => some (acc, l)
  | _ + 1, _, [] => none
  | n + 1, acc, c :: r =>
      if c.isDigit then grabD n (acc * 10 + (c.toNat - 48)) r else none

/-- Consume one literal character. -/
def lit (ch : Char) : List Char → Option (List Char)
  | [] => none
  | c :: r => if c = ch then some r else none

/-- Consume the `[ T]` separator of `TS_RE`, remembering which character
matched (`strptime` later accepts only the space). -/
def sepSpT : List Char → Option (Char × List Char)
  | [] => none
  | c :: r => if c = ' ' || c = 'T' then some (c, r) else none

/-- Try to match `TS_RE` at the head of the list; on success return the six
numeric fields, the separator character that matched `[ T]`, and the rest of
the input after the 19 matched characters. -/
def tsMatchAt (l : List Char) :
    Option ((Nat × Nat × Nat × Nat × Nat × Nat) × Char × List Char) :=
  match grabD 4 0 l with
  | none => none
  | some (y, r1) =>
  match lit '-' r1 with
  | none => none
  | some r2 =>
  match grabD 2 0 r2 with
  | none => none
  | some (mo, r3) =>
  match lit '-' r3 with
  | none => none
  | some r4 =>
  match grabD 2 0 r4 with
  | none => none
  | some (d, r5) =>
  match sepSpT r5 with
  | none => none
  | some (sep, r6) =>
  match grabD 2 0 r6 with
  | none => none
  | some (h, r7) =>
  match lit ':' r7 with
  | none => none
  | some r8 =>
  match grabD 2 0 r8 with
  | none => none
  | some (mi, r9) =>
  match lit ':' r9 with
  | none => none
  | some r10 =>
  match grabD 2 0 r10 with
  | none => none
  | some (s, r11) => some ((y, mo, d, h, mi, s), sep, r11)

/-- Scanner for `TS_RE.sub("<TS>", s)`: replace every (leftmost,
non-overlapping) match with the literal token `<TS>`. -/
def tsSubGo : Nat → List Char → List Char
  | 0, l => l
  | _ + 1, [] => []
  | fuel + 1, c :: rest =>
      match tsMatchAt (c :: rest) with
      | some (_, _, r) => '<' :: 'T' :: 'S' :: '>' :: tsSubGo fuel r
      | none => c :: tsSubGo fuel rest

/-- First masking step of the normalizer: `TS_RE.sub("<TS>", s)`. -/
def tsSub (l : List Char) : List Char := tsSubGo (l.length + 1) l

/-- Scanner for `TS_RE.search`: numeric fields and separator of the first
match, if any (only the first match is ever handed to `strptime`). -/
def tsFirstGo : Nat → List Char → Option ((Nat × Nat × Nat × Nat × Nat × Nat) × Char)
  | 0, _ => none
  | _ + 1, [] => none
  | fuel + 1, c :: rest =>
      match tsMatchAt (c :: rest) with
      | some (nums, sep, _) => some (nums, sep)
      | none => tsFirstGo fuel rest

/-! ### Level regex `LEVEL_RE = \b(INFO|WARN|WARNING|ERROR|FATAL|DEBUG|TRACE)\b`,
case-insensitive.  Python tries the alternatives left to right and checks the
trailing `\b` for each (so `WARN` loses to `WARNING` on input `WARNING`
because the trailing boundary fails after `WARN`). -/

/-- The alternatives of `LEVEL_RE`, in the order they appear in the pattern. -/
def levelAlts : List (List Char) :=
  [['I','N','F','O'], ['W','A','R','N'], ['W','A','R','N','I','N','G'],
   ['E','R','R','O','R'], ['F','A','T','A','L'], ['D','E','B','U','G'],
   ['T','R','A','C','E']]

/-- Case-insensitive match of the (uppercase) word `w` at the head of `l`;
returns the rest after the match. -/
def matchCI : List Char → List Char → Option (List Char)
  | [], l => some l
  | _ :: _, [] => none
  | wc :: wr, c :: cr => if c.toUpper = wc then matchCI wr cr else none

/-- Try the level alternatives in order at the current position (the leading
`\b` has already been checked by the caller); each alternative must also
satisfy the trailing `\b`.  Returns the uppercase token and the rest. -/
def tryLevelAux : List (List Char) → List Char → Option (String × List Char)
  | [], _ => none
  | w :: ws, l =>
      match matchCI w l with
      | some rest => if nextNotWord rest then some (⟨w⟩, rest) else tryLevelAux ws l
      | none => tryLevelAux ws l

def tryLevel (l : List Char) : Option (String × List Char) := tryLevelAux levelAlts l

/-- Scanner for `LEVEL_RE.search` (used by `parse_level`): uppercase token of
the first match.  `prevWord` records whether the previous character was a
word character (for the leading `\b`). -/
def parseLevelGo : Nat → Bool → List Char → Option String
  | 0, _, _ => none
  | _ + 1, _, [] => none
  | fuel + 1, prevWord, c :: rest =>
      match if prevWord then none else tryLevel (c :: rest) with
      | some (w, _) => some w
      | none => parseLevelGo fuel (isWordChar c) rest

/-- Scanner for `LEVEL_RE.sub("<LEVEL>", s)`. -/
def levelSubGo : Nat → Bool → List Char → List Char
  | 0, _, l => l
  | _ + 1, _, [] => []
  | fuel + 1, prevWord, c :: rest =>
      match if prevWord then none else tryLevel (c :: rest) with
      | some (_, r) =>
          '<' :: 'L' :: 'E' :: 'V' :: 'E' :: 'L' :: '>' :: levelSubGo fuel true r
      | none => c :: levelSubGo fuel (isWordChar c) rest

def levelSub (l : List Char) : List Char := levelSubGo (l.length + 1) false l

/-! ### Hex regex `\b0x[0-9a-fA-F]+\b` -/

/-- Scanner for `re.sub(r"\b0x[0-9a-fA-F]+\b", "<HEX>", s)`.  A match needs a
word boundary before `0`, the literal `0x`, a maximal nonempty run of hex
digits, and a word boundary after the run (backtracking to a shorter run
cannot help, because hex digits are word characters). -/
def hexSubGo : Nat → Bool → List Char → List Char
  | 0, _, l => l
  | _ + 1, _, [] => []
  | fuel + 1, prevWord, c :: rest =>
      if !prevWord && c = '0' then
        match rest with
        | 'x' :: r2 =>
            let run := r2.takeWhile isHexChar
            let r3 := r2.dropWhile isHexChar
            if run.length ≥ 1 && nextNotWord r3 then
              '<' :: 'H' :: 'E' :: 'X' :: '>' :: hexSubGo fuel true r3
            else c :: hexSubGo fuel true rest
        | _ => c :: hexSubGo fuel true rest
      else c :: hexSubGo fuel (isWordChar c) rest

def hexSub (l : List Char) : List Char := hexSubGo (l.length + 1) false l

/-! ### Number regex `\b\d+\b` -/

/-- Scanner for `re.sub(r"\b\d+\b", "<NUM>", s)`: word boundary, a maximal
nonempty digit run, word boundary after the run. -/
def numSubGo : Nat → Bool → List Char → List Char
  | 0, _, l => l
  | _ + 1, _, [] => []
  | fuel + 1, prevWord, c :: rest =>
      if !prevWord && c.isDigit then
        let r3 := (c :: rest).dropWhile Char.isDigit
        if nextNotWord r3 then
          '<' :: 'N' :: 'U' :: 'M' :: '>' :: numSubGo fuel true r3
        else c :: numSubGo fuel true rest
      else c :: numSubGo fuel (isWordChar c) rest

def numSub (l : List Char) : List Char := numSubGo (l.length + 1) false l

/-! ### URL regex `(https?://\S+)` -/

/-- Match `http://` or `https://` at the head; return the rest. -/
def urlHead : List Char → Option (List Char)
  | 'h' :: 't' :: 't' :: 'p' :: 's' :: ':' :: '/' :: '/' :: r => some r
  | 'h' :: 't' :: 't' :: 'p' :: ':' :: '/' :: '/' :: r => some r
  | _ => none

/-- Scanner for `re.sub(r"(https?://\S+)", "<URL>", s)`: the scheme followed
by a maximal nonempty run of non-space characters. -/
def urlSubGo : Nat → List Char → List Char
  | 0, l => l
  | _ + 1, [] => []
  | fuel + 1, c :: rest =>
      match urlHead (c :: rest) with
      | some r =>
          let run := r.takeWhile (fun ch => !(isSpaceChar ch))
          let r2 := r.dropWhile (fun ch => !(isSpaceChar ch))
          if run.length ≥ 1 then
            '<' :: 'U' :: 'R' :: 'L' :: '>' :: urlSubGo fuel r2
          else c :: urlSubGo fuel rest
      | none => c :: urlSubGo fuel rest

def urlSub (l : List Char) : List Char := urlSubGo (l.length + 1) l

/-! ### Path regex `(/[A-Za-z0-9._-]+)+` -/

/-- Consume as many `/segment` groups as possible (greedy `(...)+`). -/
def pathGroups : Nat → List Char → List Char
  | 0, l => l
  | fuel + 1, l =>
      match l with
      | '/' :: r =>
          if (r.takeWhile isPathChar).length ≥ 1 then
            pathGroups fuel (r.dropWhile isPathChar)
          else l
      | _ => l

/-- Scanner for `re.sub(r"(/[A-Za-z0-9._-]+)+", "<PATH>", s)`. -/
def pathSubGo : Nat → List Char → List Char
  | 0, l => l
  | _ + 1, [] => []
  | fuel + 1, c :: rest =>
      if c = '/' && (rest.takeWhile isPathChar).length ≥ 1 then
        '<' :: 'P' :: 'A' :: 'T' :: 'H' :: '>' ::
          pathSubGo fuel (pathGroups (rest.length + 1) (c :: rest))
      else c :: pathSubGo fuel rest

def pathSub (l : List Char) : List Char := pathSubGo (l.length + 1) l

/-! ### Whitespace collapse `re.sub(r"\s+", " ", s).strip()` -/

/-- Collapse each whitespace run to a single space (`prevSp` records whether
the previous character was whitespace). -/
def collapseGo : Bool → List Char → List Char
  | _, [] => []
  | prevSp, c :: rest =>
      if isSpaceChar c then
        if prevSp then collapseGo true rest else ' ' :: collapseGo true rest
      else c :: collapseGo false rest

/-- `str.strip()`: drop leading and trailing whitespace. -/
def stripWs (l : List Char) : List Char :=
  ((l.dropWhile isSpaceChar).reverse.dropWhile isSpaceChar).reverse

def collapseStrip (l : List Char) : List Char := stripWs (collapseGo false l)

/-! ### Line classifier: `parse_level`, `parse_ts`, `is_errorish` -/

/-- `parse_level(line)`: uppercase token of the first `LEVEL_RE` match. -/
def parse_level (s : String) : Option String :=
  parseLevelGo (s.data.length + 1) false s.data

/-- A parsed timestamp (the fields `datetime` exposes that the engine uses). -/
structure PDateTime where
  year : Nat
  month : Nat
  day : Nat
  hour : Nat
  minute : Nat
  second : Nat
deriving DecidableEq, Repr

/-- Whether `y` is a Gregorian leap year (as `calendar`/`datetime` decide). -/
def isLeap (y : Nat) : Bool :=
  y % 4 = 0 && (y % 100 ≠ 0 || y % 400 = 0)

/-- Days in a month, as validated by the `datetime` constructor. -/
def daysInMonth (y m : Nat) : Nat :=
  if m = 1 then 31 else if m = 2 then (if isLeap y then 29 else 28)
  else if m = 3 then 31 else if m = 4 then 30 else if m = 5 then 31
  else if m = 6 then 30 else if m = 7 then 31 else if m = 8 then 31
  else if m = 9 then 30 else if m = 10 then 31 else if m = 11 then 30
  else if m = 12 then 31 else 0

/-- Field validation performed by `datetime.strptime(..., "%Y-%m-%d %H:%M:%S")`
(a `ValueError` in Python corresponds to `false` here). -/
def validDT (y mo d h mi s : Nat) : Bool :=
  1 ≤ y && 1 ≤ mo && mo ≤ 12 && 1 ≤ d && d ≤ daysInMonth y mo &&
    h ≤ 23 && mi ≤ 59 && s ≤ 59

/-- `parse_ts(line)`: locate the first `TS_RE` match, then parse it with
`strptime("%Y-%m-%d %H:%M:%S")`.  The format string has a literal space, so
a match whose `[ T]` separator is `'T'` raises `ValueError` exactly like a
match whose fields are out of range; both are caught and yield `none`, and
no further matches are tried. -/
def parse_ts (s : String) : Option PDateTime :=
  match tsFirstGo (s.data.length + 1) s.data with
  | none => none
  | some ((y, mo, d, h, mi, sec), sep) =>
      if sep = ' ' && validDT y mo d h mi sec then some ⟨y, mo, d, h, mi, sec⟩
      else none

/-- `ERROR_HINTS` from the source. -/
def ERROR_HINTS : List String :=
  ["error", "exception", "traceback", "fatal", "panic", "failed",
   "failure", "assert", "segfault"]

/-- Substring test (`needle in hay` on Python strings). -/
def hasSub (needle : List Char) : List Char → Bool
  | [] => needle.isEmpty
  | l@(_ :: rest) => needle.isPrefixOf l || hasSub needle rest

/-- `is_errorish(line)`: level is ERROR or FATAL, or the lowercased line
contains one of the fixed hint substrings. -/
def is_errorish (s : String) : Bool :=
  match parse_level s with
  | some lvl =>
      if lvl = "ERROR" || lvl = "FATAL" then true
      else ERROR_HINTS.any fun h => hasSub h.data (s.data.map Char.toLower)
  | none => ERROR_HINTS.any fun h => hasSub h.data (s.data.map Char.toLower)

/-! ### Normalizer -/

/-- The seven masking steps as `String`-level functions, in source order. -/
def tsStep (s : String) : String := ⟨tsSub s.data⟩

def levelStep (s : String) : String := ⟨levelSub s.data⟩

def hexStep (s : String) : String := ⟨hexSub s.data⟩

def numStep (s : String) : String := ⟨numSub s.data⟩

def urlStep (s : String) : String := ⟨urlSub s.data⟩

def pathStep (s : String) : String := ⟨pathSub s.data⟩

def wsStep (s : String) : String := ⟨collapseStrip s.data⟩

/-- `normalize(line)`: mask timestamps, level tokens, hex literals, decimal
runs, URLs and paths, then collapse whitespace and strip. -/
def normalize (s : String) : String :=
  wsStep (pathStep (urlStep (numStep (hexStep (levelStep (tsStep s))))))

/-! ### Similarity scorer (modelled from the spec, §4.4: greedy recursive
longest-common-substring matcher; ratio = 2·M / T). -/

/-- Length of the common prefix of two lists. -/
def cpl : List Char → List Char → Nat
  | a :: as', b :: bs' => if a = b then cpl as' bs' + 1 else 0
  | _, _ => 0

/-- Best match of `sa` against every suffix of `b`: returns `(j, k)` with `k`
maximal (`k` = common prefix of `sa` and `b.drop j`), ties to the smallest
`j`.  The argument `j` is the index of the first position of `b`. -/
def rowBestAux (sa : List Char) : List Char → Nat → Nat × Nat
  | [], j => (j, 0)
  | bb@(_ :: bt), j =>
      let k := cpl sa bb
      let (j', k') := rowBestAux sa bt (j + 1)
      if k < k' then (j', k') else (j, k)

/-- Longest matching block of `a` against `b` starting at row `i`: returns
`(i, j, k)` with `k` maximal, ties to the smallest `i`, then smallest `j`
(the tie-breaking rule documented for `find_longest_match`). -/
def lcsAux : List Char → List Char → Nat → Nat × Nat × Nat
  | [], _, i => (i, 0, 0)
  | aa@(_ :: at'), b, i =>
      let (j, k) := rowBestAux aa b 0
      let (i', j', k') := lcsAux at' b (i + 1)
      if k < k' then (i', j', k') else (i, j, k)

/-- Longest matching block of `a` against `b` (with the documented
tie-breaking), as `(start in a, start in b, length)`; `(_, _, 0)` when the
strings share no characters. -/
def lcsBest (a b : List Char) : Nat × Nat × Nat := lcsAux a b 0

/-- Total length of all matching blocks: the greedy recursion of
`get_matching_blocks` (find the longest block, recurse on the pieces to its
left and to its right).  Fueled; `fuel = a.length + b.length` suffices. -/
def matchTotalF : Nat → List Char → List Char → Nat
  | 0, _, _ => 0
  | fuel + 1, a, b =>
      match lcsBest a b with
      | (i, j, k) =>
        if k = 0 then 0
        else matchTotalF fuel (a.take i) (b.take j) + k +
             matchTotalF fuel (a.drop (i + k)) (b.drop (j + k))

def matchTotal (a b : List Char) : Nat := matchTotalF (a.length + b.length) a b

/-- `ratio = 2·M / T`; both strings empty gives `1` (as in `difflib`). -/
def ratioQ (a b : List Char) : ℚ :=
  if a.length + b.length = 0 then 1
  else mkRat (2 * matchTotal a b) (a.length + b.length)

/-- `similarity(a, b)`: the SequenceMatcher ratio of the two strings. -/
def similarity (a b : String) : ℚ := ratioQ a.data b.data

/-! ### Greedy clusterer: `cluster_errors` -/

structure Cluster where
  cluster_id : Nat
  rep : String
  count : Nat
  examples : List String
deriving DecidableEq, Repr

instance : Inhabited Cluster := ⟨⟨0, "", 0, []⟩⟩

/-- Fold the body of the `for i, c in enumerate(clusters)` loop: running best
index and best score, updated only on a strictly greater score (`sc >
best_sc`, with `best_sc` starting at `0.0`). -/
def bestScan (n : String) : List Cluster → Nat → Option Nat × ℚ → Option Nat × ℚ
  | [], _, acc => acc
  | c :: cs, i, (bi, bs) =>
      let sc := similarity n c.rep
      if bs < sc then bestScan n cs (i + 1) (some i, sc)
      else bestScan n cs (i + 1) (bi, bs)

/-- Increment the matched cluster: `count += 1`, and append the raw line to
`examples` when below the `examples_each` cap. -/
def bumpCluster (ex : Nat) (ln : String) (c : Cluster) : Cluster :=
  { c with count := c.count + 1,
           examples := if c.examples.length < ex then c.examples ++ [ln]
                       else c.examples }

def bumpAt (ex : Nat) (ln : String) : Nat → List Cluster → List Cluster
  | _, [] => []
  | 0, c :: cs => bumpCluster ex ln c :: cs
  | i + 1, c :: cs => c :: bumpAt ex ln i cs

/-- One iteration of the clustering loop for the error-ish line `ln`. -/
def clusterStep (threshold : ℚ) (ex : Nat) (clusters : List Cluster)
    (ln : String) : List Cluster :=
  let n := normalize ln
  match bestScan n clusters 0 (none, 0) with
  | (some i, bs) =>
      if threshold ≤ bs then bumpAt ex ln i clusters
      else clusters ++ [⟨clusters.length + 1, n, 1, [ln]⟩]
  | (none, _) => clusters ++ [⟨clusters.length + 1, n, 1, [ln]⟩]

/-- The full clustering pass over the error-ish lines (before sorting and
truncation). -/
def clusterPass (threshold : ℚ) (ex : Nat) (errs : List String) : List Cluster :=
  errs.foldl (clusterStep threshold ex) []

/-- Stable insertion (by descending `count`; an element inserted later goes
after earlier elements of equal count).  `l.foldl insertCluster []` computes
exactly `clusters.sort(key=lambda c: c.count, reverse=True)`: Python's sort
is stable, and `reverse=True` reverses the comparison, not the result. -/
def insertCluster : List Cluster → Cluster → List Cluster
  | [], c => [c]
  | x :: xs, c => if x.count < c.count then c :: x :: xs else x :: insertCluster xs c

def sortClusters (l : List Cluster) : List Cluster := l.foldl insertCluster []

/-- Failure modes of the two tools (Python exceptions). -/
inductive ToolError where
  | fileNotFound
  | zeroDivision
deriving DecidableEq, Repr

structure ClustersResult where
  extracted_errorish : Nat
  threshold : ℚ
  clusters : List Cluster
deriving DecidableEq, Repr

/-- `cluster_errors(log_path, threshold, top_k, examples_each)`.  The
filesystem argument is `none` when `log_path` does not exist, otherwise the
list of lines read from the file. -/
def cluster_errors (fs : Option (List String)) (threshold : ℚ)
    (top_k examples_each : Nat) : Except ToolError ClustersResult :=
  match fs with
  | none => .error .fileNotFound
  | some lines =>
      let error_lines := lines.filter fun ln => is_errorish ln
      let clusters := clusterPass threshold examples_each error_lines
      .ok ⟨error_lines.length, threshold, (sortClusters clusters).take top_k⟩

/-! ### Histogram builder: `analyze_levels` -/

/-- `Counter`-style bump on an insertion-ordered association list. -/
def bumpCounter (key : String) : List (String × Nat) → List (String × Nat)
  | [] => [(key, 1)]
  | (k, v) :: rest =>
      if k = key then (k, v + 1) :: rest else (k, v) :: bumpCounter key rest

/-- Zero-padded two-digit field (`%02d` for values below 100). -/
def pad2 (n : Nat) : String := if n < 10 then "0" ++ toString n else toString n

/-- Zero-padded four-digit field (`%04d` for values below 10000). -/
def pad4 (n : Nat) : String :=
  if n < 10 then "000" ++ toString n
  else if n < 100 then "00" ++ toString n
  else if n < 1000 then "0" ++ toString n
  else toString n

/-- `datetime.isoformat(sep=" ")` for a whole-second datetime. -/
def isoformatDT (d : PDateTime) : String :=
  pad4 d.year ++ "-" ++ pad2 d.month ++ "-" ++ pad2 d.day ++ " " ++
    pad2 d.hour ++ ":" ++ pad2 d.minute ++ ":" ++ pad2 d.second

/-- `ts.replace(minute=(ts.minute // bin_minutes) * bin_minutes, second=0)`. -/
def bucketOf (ts : PDateTime) (bin : Nat) : PDateTime :=
  { ts with minute := ts.minute / bin * bin, second := 0 }

structure LevelsResult where
  total_lines : Nat
  level_counts : List (String × Nat)
  time_bins : List (String × Nat)
  bin_minutes : Nat
deriving DecidableEq, Repr

/-- The per-line loop of `analyze_levels`.  A line with a parseable timestamp
evaluates `ts.minute // bin_minutes`, which raises `ZeroDivisionError` when
`bin_minutes = 0` (Lean's total `/` would silently return 0, so the zero
case throws explicitly to mirror Python). -/
def levelsLoop (bin : Nat) :
    List String → List (String × Nat) → List (String × Nat) →
    Except ToolError (List (String × Nat) × List (String × Nat))
  | [], lc, tb => .ok (lc, tb)
  | ln :: rest, lc, tb =>
      let lc' := match parse_level ln with
                 | some lvl => bumpCounter lvl lc
                 | none => lc
      match parse_ts ln with
      | some ts =>
          if bin = 0 then .error .zeroDivision
          else levelsLoop bin rest lc' (bumpCounter (isoformatDT (bucketOf ts bin)) tb)
      | none => levelsLoop bin rest lc' tb

/-- `analyze_levels(log_path, bin_minutes)`. -/
def analyze_levels (fs : Option (List String)) (bin : Nat) :
    Except ToolError LevelsResult :=
  match fs with
  | none => .error .fileNotFound
  | some lines =>
      (levelsLoop bin lines [] []).map fun (lc, tb) =>
        ⟨lines.length, lc, tb, bin⟩

instance {ε α : Type} [DecidableEq ε] [DecidableEq α] : DecidableEq (Except ε α) := fun a b =>
  match a, b with
  | .error e, .error f =>
      if h : e = f then .isTrue (by rw [h]) else .isFalse (by simp [h])
  | .ok x, .ok y =>
      if h : x = y then .isTrue (by rw [h]) else .isFalse (by simp [h])
  | .error _, .ok _ => .isFalse (by simp)
  | .ok _, .error _ => .isFalse (by simp)

/-! ### Theory of the similarity scorer -/

theorem cpl_nil_left (b : List Char) : cpl [] b = 0 := by cases b <;> rfl

theorem cpl_nil_right (a : List Char) : cpl a [] = 0 := by cases a <;> rfl

theorem cpl_le_left : ∀ a b : List Char, cpl a b ≤ a.length := by
  intro a
  induction a with
  | nil => intro b; simp [cpl_nil_left]
  | cons x xs ih =>
      intro b
      cases b with
      | nil => simp [cpl_nil_right]
      | cons y ys =>
          simp only [cpl]
          split
          · have := ih ys; simpa using Nat.succ_le_succ this
          · simp

theorem cpl_le_right : ∀ a b : List Char, cpl a b ≤ b.length := by
  intro a
  induction a with
  | nil => intro b; simp [cpl_nil_left]
  | cons x xs ih =>
      intro b
      cases b with
      | nil => simp [cpl_nil_right]
      | cons y ys =>
          simp only [cpl]
          split
          · have := ih ys; simpa using Nat.succ_le_succ this
          · simp

theorem cpl_self : ∀ a : List Char, cpl a a = a.length := by
  intro a
  induction a with
  | nil => simp [cpl_nil_left]
  | cons x xs ih => simp [cpl, ih]

theorem cpl_take : ∀ a b : List Char, (a.take (cpl a b)) = (b.take (cpl a b)) := by
  intro a
  induction a with
  | nil => intro b; simp [cpl_nil_left]
  | cons x xs ih =>
      intro b
      cases b with
      | nil => simp [cpl_nil_right]
      | cons y ys =>
          simp only [cpl]
          split
          · next h => simp [List.take_succ_cons, h, ih ys]
          · simp

/-- The score of `rowBestAux` is bounded by both lengths. -/
theorem rowBestAux_le (sa : List Char) :
    ∀ (b : List Char) (j : Nat),
      (rowBestAux sa b j).2 ≤ sa.length ∧ (rowBestAux sa b j).2 ≤ b.length := by
  intro b
  induction b with
  | nil => intro j; simp [rowBestAux]
  | cons y ys ih =>
      intro j
      simp only [rowBestAux]
      have h1 := cpl_le_left sa (y :: ys)
      have h2 := cpl_le_right sa (y :: ys)
      have h3 := ih (j + 1)
      split
      · exact ⟨h3.1, Nat.le_trans h3.2 (by simp)⟩
      · exact ⟨h1, h2⟩

/-- `rowBestAux` returns an offset `t` and the common-prefix length at `t`. -/
theorem rowBestAux_spec (sa : List Char) :
    ∀ (b : List Char) (j : Nat),
      ∃ t, t ≤ b.length ∧ (rowBestAux sa b j).1 = j + t ∧
        (rowBestAux sa b j).2 = cpl sa (b.drop t) := by
  intro b
  induction b with
  | nil => intro j; exact ⟨0, by simp [rowBestAux, cpl_nil_right]⟩
  | cons y ys ih =>
      intro j
      simp only [rowBestAux]
      obtain ⟨t, ht, h1, h2⟩ := ih (j + 1)
      split
      · exact ⟨t + 1, by simpa using ht, by omega, by simpa using h2⟩
      · exact ⟨0, by simp⟩

/-- The score of `rowBestAux` dominates the common prefix at every offset. -/
theorem rowBestAux_max (sa : List Char) :
    ∀ (b : List Char) (j d : Nat), cpl sa (b.drop d) ≤ (rowBestAux sa b j).2 := by
  intro b
  induction b with
  | nil => intro j d; simp [rowBestAux, cpl_nil_right]
  | cons y ys ih =>
      intro j d
      simp only [rowBestAux]
      cases d with
      | zero =>
          simp only [List.drop_zero]
          split
          · next h => exact Nat.le_trans (Nat.le_of_lt h) (by rfl)
          · rfl
      | succ d' =>
          have := ih (j + 1) d'
          simp only [List.drop_succ_cons]
          split
          · exact this
          · next h => exact Nat.le_trans this (Nat.le_of_not_lt h)

/-- The score of `lcsAux` is bounded by both lengths. -/
theorem lcsAux_le :
    ∀ (a b : List Char) (i : Nat),
      (lcsAux a b i).2.2 ≤ a.length ∧ (lcsAux a b i).2.2 ≤ b.length := by
  intro a
  induction a with
  | nil => intro b i; simp [lcsAux]
  | cons x xs ih =>
      intro b i
      simp only [lcsAux]
      have hr := rowBestAux_le (x :: xs) b 0
      have hi := ih b (i + 1)
      split
      · exact ⟨Nat.le_trans hi.1 (by simp), hi.2⟩
      · exact ⟨hr.1, hr.2⟩

/-- `lcsAux` returns offsets `s`, `t` and the common-prefix length there. -/
theorem lcsAux_spec :
    ∀ (a b : List Char) (i : Nat),
      ∃ s t, s ≤ a.length ∧ t ≤ b.length ∧
        (lcsAux a b i).1 = i + s ∧ (lcsAux a b i).2.1 = t ∧
        (lcsAux a b i).2.2 = cpl (a.drop s) (b.drop t) := by
  intro a
  induction a with
  | nil =>
      intro b i
      exact ⟨0, 0, by simp [lcsAux, cpl_nil_left]⟩
  | cons x xs ih =>
      intro b i
      simp only [lcsAux]
      obtain ⟨s, t, hs, ht, h1, h2, h3⟩ := ih b (i + 1)
      obtain ⟨t0, ht0, hr1, hr2⟩ := rowBestAux_spec (x :: xs) b 0
      split
      · exact ⟨s + 1, t, by simpa using hs, ht, by omega, by simpa using h2,
          by simpa using h3⟩
      · exact ⟨0, t0, by simp, ht0, by simp, by simpa using hr1, by simpa using hr2⟩

/-- The score of `lcsAux` dominates the common prefix at every offset pair. -/
theorem lcsAux_max :
    ∀ (a b : List Char) (i d e : Nat),
      cpl (a.drop d) (b.drop e) ≤ (lcsAux a b i).2.2 := by
  intro a
  induction a with
  | nil => intro b i d e; simp [lcsAux, cpl_nil_left]
  | cons x xs ih =>
      intro b i d e
      simp only [lcsAux]
      cases d with
      | zero =>
          have := rowBestAux_max (x :: xs) b 0 e
          simp only [List.drop_zero]
          split
          · next h => exact Nat.le_trans this (Nat.le_of_lt h)
          · exact this
      | succ d' =>
          have := ih b (i + 1) d' e
          simp only [List.drop_succ_cons]
          split
          · exact this
          · next h => exact Nat.le_trans this (Nat.le_of_not_lt h)

/-- On identical nonempty inputs the longest matching block is the whole
string, found at offsets `(0, 0)`. -/
theorem lcsBest_self (a : List Char) (h : a ≠ []) :
    lcsBest a a = (0, 0, a.length) := by
  cases a with
  | nil => exact absurd rfl h
  | cons x xs =>
      show lcsAux (x :: xs) (x :: xs) 0 = _
      simp only [lcsAux, rowBestAux]
      have hk : cpl (x :: xs) (x :: xs) = xs.length + 1 := by
        simpa using cpl_self (x :: xs)
      have h1 := (rowBestAux_le (x :: xs) xs 1).2
      have h2 := (lcsAux_le xs (x :: xs) 1).1
      have hx1 : ¬ (cpl (x :: xs) (x :: xs) < (rowBestAux (x :: xs) xs 1).2) := by
        omega
      have hx2 : ¬ ((if cpl (x :: xs) (x :: xs) < (rowBestAux (x :: xs) xs 1).2
          then ((rowBestAux (x :: xs) xs 1).1, (rowBestAux (x :: xs) xs 1).2)
          else (0, cpl (x :: xs) (x :: xs))).2 < (lcsAux xs (x :: xs) 1).2.2) := by
        rw [if_neg hx1]
        simp only
        omega
      rw [if_neg hx1] at hx2 ⊢
      simp only at hx2 ⊢
      rw [if_neg hx2]
      simp [hk]

theorem matchTotalF_nil_left (f : Nat) (b : List Char) : matchTotalF f [] b = 0 := by
  cases f with
  | zero => rfl
  | succ f' =>
      have h : lcsBest [] b = (0, 0, 0) := rfl
      simp [matchTotalF, h]

/-- Unfolding of one step of the matcher with the block made explicit. -/
theorem matchTotalF_succ_eq (f : Nat) (a b : List Char) (i j k : Nat)
    (hb : lcsBest a b = (i, j, k)) :
    matchTotalF (f + 1) a b =
      if k = 0 then 0
      else matchTotalF f (a.take i) (b.take j) + k +
           matchTotalF f (a.drop (i + k)) (b.drop (j + k)) := by
  simp [matchTotalF, hb]

/-- The total matched length is bounded by both string lengths. -/
theorem matchTotalF_le :
    ∀ (f : Nat) (a b : List Char),
      matchTotalF f a b ≤ a.length ∧ matchTotalF f a b ≤ b.length := by
  intro f
  induction f with
  | zero => intro a b; simp [matchTotalF]
  | succ f ih =>
      intro a b
      obtain ⟨s, t, hs, ht, hsp1, hsp2, hsp3⟩ := lcsAux_spec a b 0
      rcases hb : lcsBest a b with ⟨i, j, k⟩
      have hb' : lcsAux a b 0 = (i, j, k) := hb
      rw [hb'] at hsp1 hsp2 hsp3
      simp at hsp1 hsp2 hsp3
      have c1 := cpl_le_left (a.drop s) (b.drop t)
      have c2 := cpl_le_right (a.drop s) (b.drop t)
      simp only [List.length_drop] at c1 c2
      rw [matchTotalF_succ_eq f a b i j k hb]
      by_cases hk0 : k = 0
      · rw [if_pos hk0]; exact ⟨Nat.zero_le _, Nat.zero_le _⟩
      · rw [if_neg hk0]
        have l1 := ih (a.take i) (b.take j)
        have l2 := ih (a.drop (i + k)) (b.drop (j + k))
        simp only [List.length_take, List.length_drop] at l1 l2
        constructor <;> omega

/-- On identical inputs the matcher covers the whole string. -/
theorem matchTotalF_self (f : Nat) (a : List Char) (hf : a.length ≤ f) :
    matchTotalF f a a = a.length := by
  cases a with
  | nil => simp [matchTotalF_nil_left]
  | cons x xs =>
      cases f with
      | zero => simp at hf
      | succ f' =>
          rw [matchTotalF_succ_eq f' (x :: xs) (x :: xs) 0 0 (x :: xs).length
            (lcsBest_self (x :: xs) (by simp))]
          rw [if_neg (by simp)]
          simp [matchTotalF_nil_left, List.drop_length]

/-- If the matcher covers both strings entirely, the strings are equal. -/
theorem matchTotalF_eq_full :
    ∀ (f : Nat) (a b : List Char),
      matchTotalF f a b = a.length → matchTotalF f a b = b.length → a = b := by
  intro f
  induction f with
  | zero =>
      intro a b h1 h2
      simp only [matchTotalF] at h1 h2
      cases a with
      | nil => cases b with
        | nil => rfl
        | cons y ys => simp at h2
      | cons x xs => simp at h1
  | succ f ih =>
      intro a b h1 h2
      obtain ⟨s, t, hs, ht, hsp1, hsp2, hsp3⟩ := lcsAux_spec a b 0
      rcases hb : lcsBest a b with ⟨i, j, k⟩
      have hb' : lcsAux a b 0 = (i, j, k) := hb
      rw [hb'] at hsp1 hsp2 hsp3
      simp at hsp1 hsp2 hsp3
      rw [matchTotalF_succ_eq f a b i j k hb] at h1 h2
      by_cases hk0 : k = 0
      · rw [if_pos hk0] at h1 h2
        have ha : a = [] := List.length_eq_zero.mp h1.symm
        have hbnil : b = [] := List.length_eq_zero.mp h2.symm
        rw [ha, hbnil]
      · rw [if_neg hk0] at h1 h2
        have c1 := cpl_le_left (a.drop s) (b.drop t)
        have c2 := cpl_le_right (a.drop s) (b.drop t)
        simp only [List.length_drop] at c1 c2
        have l1 := matchTotalF_le f (a.take i) (b.take j)
        have l2 := matchTotalF_le f (a.drop (i + k)) (b.drop (j + k))
        simp only [List.length_take, List.length_drop] at l1 l2
        -- the three pieces must each be saturated
        have hLi : matchTotalF f (a.take i) (b.take j) = i := by omega
        have hLj : matchTotalF f (a.take i) (b.take j) = j := by omega
        have hRa : matchTotalF f (a.drop (i + k)) (b.drop (j + k)) =
            a.length - (i + k) := by omega
        have hRb : matchTotalF f (a.drop (i + k)) (b.drop (j + k)) =
            b.length - (j + k) := by omega
        have htake : a.take i = b.take j := by
          apply ih
          · rw [hLi, List.length_take]; omega
          · rw [hLj, List.length_take]; omega
        have hdrop : a.drop (i + k) = b.drop (j + k) := by
          apply ih
          · rw [hRa, List.length_drop]
          · rw [hRb, List.length_drop]
        have hmid : (a.drop i).take k = (b.drop j).take k := by
          have hcpl := cpl_take (a.drop s) (b.drop t)
          rw [hsp1, hsp2, hsp3]
          exact hcpl
        have hij : i = j := by omega
        have ha : a = a.take i ++ ((a.drop i).take k ++ a.drop (i + k)) := by
          rw [← List.drop_drop]
          simp [List.take_append_drop, Nat.add_comm]
        have hbb : b = b.take j ++ ((b.drop j).take k ++ b.drop (j + k)) := by
          rw [← List.drop_drop]
          simp [List.take_append_drop, Nat.add_comm]
        rw [ha, hbb, htake, hmid, hdrop]

theorem matchTotal_le_left (a b : List Char) : matchTotal a b ≤ a.length :=
  (matchTotalF_le _ a b).1

theorem matchTotal_le_right (a b : List Char) : matchTotal a b ≤ b.length :=
  (matchTotalF_le _ a b).2

theorem matchTotal_self (a : List Char) : matchTotal a a = a.length :=
  matchTotalF_self _ a (Nat.le_add_right _ _)

/-- `ratioQ` as a plain division of rationals. -/
theorem ratioQ_eq_div (a b : List Char) (h : a.length + b.length ≠ 0) :
    ratioQ a b = (2 * matchTotal a b : ℚ) / (a.length + b.length : ℚ) := by
  rw [ratioQ, if_neg h, Rat.mkRat_eq_div]
  push_cast
  ring

theorem ratioQ_self (a : List Char) : ratioQ a a = 1 := by
  by_cases h : a.length + a.length = 0
  · simp [ratioQ, h]
  · rw [ratioQ_eq_div a a h, matchTotal_self]
    rw [div_eq_one_iff_eq (by exact_mod_cast h)]
    ring

theorem ratioQ_nonneg (a b : List Char) : 0 ≤ ratioQ a b := by
  by_cases h : a.length + b.length = 0
  · simp [ratioQ, h]
  · rw [ratioQ_eq_div a b h]
    apply div_nonneg
    · positivity
    · positivity

theorem ratioQ_le_one (a b : List Char) : ratioQ a b ≤ 1 := by
  by_cases h : a.length + b.length = 0
  · simp [ratioQ, h]
  · rw [ratioQ_eq_div a b h]
    rw [div_le_one (by exact_mod_cast (by omega : 0 < a.length + b.length))]
    have h1 := matchTotal_le_left a b
    have h2 := matchTotal_le_right a b
    exact_mod_cast (by omega : 2 * matchTotal a b ≤ a.length + b.length)

theorem ratioQ_eq_one_iff (a b : List Char) : ratioQ a b = 1 ↔ a = b := by
  constructor
  · intro h
    by_cases h0 : a.length + b.length = 0
    · have : a = [] := List.length_eq_zero.mp (by omega)
      have hb : b = [] := List.length_eq_zero.mp (by omega)
      rw [this, hb]
    · rw [ratioQ_eq_div a b h0,
        div_eq_one_iff_eq (by exact_mod_cast (by omega : ¬ _ = _))] at h
      have h1 := matchTotal_le_left a b
      have h2 := matchTotal_le_right a b
      have h3 : 2 * matchTotal a b = a.length + b.length := by exact_mod_cast h
      have hma : matchTotal a b = a.length := by omega
      have hmb : matchTotal a b = b.length := by omega
      exact matchTotalF_eq_full (a.length + b.length) a b hma hmb
  · rintro rfl
    exact ratioQ_self a

/-- The similarity of any string with itself is exactly 1. -/
theorem similarity_self (s : String) : similarity s s = 1 := ratioQ_self s.data

theorem similarity_nonneg (a b : String) : 0 ≤ similarity a b :=
  ratioQ_nonneg a.data b.data

theorem similarity_le_one (a b : String) : similarity a b ≤ 1 :=
  ratioQ_le_one a.data b.data

/-- The similarity is exactly 1 only for identical strings. -/
theorem similarity_eq_one_iff (a b : String) : similarity a b = 1 ↔ a = b := by
  rw [similarity, ratioQ_eq_one_iff]
  exact String.ext_iff.symm

/-! ### Theory of the greedy clusterer -/

/-- Total of the `count` fields (number of lines folded into the clusters). -/
def sumCounts (l : List Cluster) : Nat := (l.map fun c => c.count).sum

theorem bestScan_acc_le (n : String) :
    ∀ (cs : List Cluster) (i : Nat) (acc : Option Nat × ℚ),
      acc.2 ≤ (bestScan n cs i acc).2 := by
  intro cs
  induction cs with
  | nil => intro i acc; exact le_refl _
  | cons c cs' ih =>
      intro i acc
      rcases acc with ⟨bi, bs⟩
      simp only [bestScan]
      split
      · next h => exact le_trans (le_of_lt h) (ih (i + 1) (some i, similarity n c.rep))
      · exact ih (i + 1) (bi, bs)

theorem bestScan_ge (n : String) :
    ∀ (cs : List Cluster) (i : Nat) (acc : Option Nat × ℚ),
      ∀ c ∈ cs, similarity n c.rep ≤ (bestScan n cs i acc).2 := by
  intro cs
  induction cs with
  | nil => intro i acc c hc; simp at hc
  | cons c0 cs' ih =>
      intro i acc c hc
      rcases acc with ⟨bi, bs⟩
      rcases List.mem_cons.mp hc with rfl | hmem
      · simp only [bestScan]
        split
        · exact le_trans (by simp) (bestScan_acc_le n cs' (i + 1) (some i, similarity n c.rep))
        · next h =>
            exact le_trans (le_of_not_lt h) (bestScan_acc_le n cs' (i + 1) (bi, bs))
      · simp only [bestScan]
        split
        · exact ih (i + 1) _ c hmem
        · exact ih (i + 1) _ c hmem

/-- A scan that ends with no index never updated the accumulator. -/
theorem bestScan_none_eq (n : String) :
    ∀ (cs : List Cluster) (i : Nat) (acc : Option Nat × ℚ),
      (bestScan n cs i acc).1 = none → bestScan n cs i acc = acc := by
  intro cs
  induction cs with
  | nil => intro i acc _; rfl
  | cons c0 cs' ih =>
      intro i acc h
      rcases acc with ⟨bi, bs⟩
      simp only [bestScan] at h ⊢
      by_cases hlt : bs < similarity n c0.rep
      · rw [if_pos hlt] at h
        -- the accumulator became `some i`; a `some` first component never
        -- reverts to `none`
        exfalso
        have : ∀ (cs : List Cluster) (k : Nat) (j : Nat) (b : ℚ),
            (bestScan n cs k (some j, b)).1 = none → False := by
          intro cs
          induction cs with
          | nil => intro k j b hh; simp [bestScan] at hh
          | cons d ds ihd =>
              intro k j b hh
              simp only [bestScan] at hh
              split at hh
              · exact ihd _ _ _ hh
              · exact ihd _ _ _ hh
        exact this cs' (i + 1) i (similarity n c0.rep) h
      · rw [if_neg hlt] at h ⊢
        exact ih (i + 1) (bi, bs) h

/-- A scan that returns an index returns one within bounds (or the index it
started with). -/
theorem bestScan_some_lt (n : String) :
    ∀ (cs : List Cluster) (i : Nat) (acc : Option Nat × ℚ) (j : Nat),
      (bestScan n cs i acc).1 = some j →
      acc.1 = some j ∨ (i ≤ j ∧ j < i + cs.length) := by
  intro cs
  induction cs with
  | nil => intro i acc j h; exact Or.inl h
  | cons c0 cs' ih =>
      intro i acc j h
      rcases acc with ⟨bi, bs⟩
      simp only [bestScan] at h
      split at h
      · rcases ih (i + 1) (some i, similarity n c0.rep) j h with h' | h'
        · have hij : i = j := by simpa using h'
          right
          simp only [List.length_cons]
          omega
        · right
          simp only [List.length_cons]
          omega
      · rcases ih (i + 1) (bi, bs) j h with h' | h'
        · exact Or.inl h'
        · right
          simp only [List.length_cons]
          omega

/-- If the first cluster scores exactly 1 and every other cluster scores
strictly below 1, the scan selects the first cluster with score 1. -/
theorem bestScan_head_one (n : String) (c0 : Cluster) (cs : List Cluster)
    (h0 : similarity n c0.rep = 1)
    (hrest : ∀ c ∈ cs, similarity n c.rep < 1) :
    bestScan n (c0 :: cs) 0 (none, 0) = (some 0, 1) := by
  have hstable : ∀ (cs' : List Cluster) (i : Nat),
      (∀ c ∈ cs', similarity n c.rep < 1) →
      bestScan n cs' i (some 0, 1) = (some 0, 1) := by
    intro cs'
    induction cs' with
    | nil => intro i _; rfl
    | cons d ds ihd =>
        intro i hh
        simp only [bestScan]
        rw [if_neg (not_lt.mpr (le_of_lt (hh d (by simp))))]
        exact ihd (i + 1) fun c hc => hh c (by simp [hc])
  simp only [bestScan]
  rw [h0, if_pos (by norm_num)]
  exact hstable cs 1 hrest

theorem bumpAt_length (ex : Nat) (ln : String) :
    ∀ (i : Nat) (cs : List Cluster), (bumpAt ex ln i cs).length = cs.length := by
  intro i
  induction i with
  | zero => intro cs; cases cs <;> simp [bumpAt]
  | succ i' ih => intro cs; cases cs <;> simp [bumpAt, ih]

theorem bumpAt_map_id (ex : Nat) (ln : String) :
    ∀ (i : Nat) (cs : List Cluster),
      (bumpAt ex ln i cs).map (fun c => c.cluster_id) =
        cs.map fun c => c.cluster_id := by
  intro i
  induction i with
  | zero => intro cs; cases cs <;> simp [bumpAt, bumpCluster]
  | succ i' ih => intro cs; cases cs <;> simp [bumpAt, ih]

theorem bumpAt_map_rep (ex : Nat) (ln : String) :
    ∀ (i : Nat) (cs : List Cluster),
      (bumpAt ex ln i cs).map (fun c => c.rep) = cs.map fun c => c.rep := by
  intro i
  induction i with
  | zero => intro cs; cases cs <;> simp [bumpAt, bumpCluster]
  | succ i' ih => intro cs; cases cs <;> simp [bumpAt, ih]

theorem bumpAt_sum (ex : Nat) (ln : String) :
    ∀ (i : Nat) (cs : List Cluster), i < cs.length →
      sumCounts (bumpAt ex ln i cs) = sumCounts cs + 1 := by
  intro i
  induction i with
  | zero =>
      intro cs h
      cases cs with
      | nil => simp at h
      | cons c cs' => simp [bumpAt, bumpCluster, sumCounts]; omega
  | succ i' ih =>
      intro cs h
      cases cs with
      | nil => simp at h
      | cons c cs' =>
          simp only [bumpAt, sumCounts, List.map_cons, List.sum_cons]
          have := ih cs' (by simpa using h)
          simp only [sumCounts] at this
          omega

/-- Case split of one clustering iteration: either the line joins the best
cluster (its index is in range), or all existing clusters score strictly
below the (positive) threshold and a new cluster is appended. -/
theorem clusterStep_cases (θ : ℚ) (ex : Nat) (cs : List Cluster) (ln : String)
    (hθ : 0 < θ) :
    (∃ i, i < cs.length ∧ θ ≤ (bestScan (normalize ln) cs 0 (none, 0)).2 ∧
        clusterStep θ ex cs ln = bumpAt ex ln i cs) ∨
    ((∀ c ∈ cs, similarity (normalize ln) c.rep < θ) ∧
        clusterStep θ ex cs ln = cs ++ [⟨cs.length + 1, normalize ln, 1, [ln]⟩]) := by
  simp only [clusterStep]
  rcases hbs : bestScan (normalize ln) cs 0 (none, 0) with ⟨bi, bs⟩
  cases bi with
  | none =>
      right
      have heq := bestScan_none_eq (normalize ln) cs 0 (none, 0) (by rw [hbs])
      refine ⟨fun c hc => ?_, rfl⟩
      have hle := bestScan_ge (normalize ln) cs 0 (none, 0) c hc
      rw [heq] at hle
      exact lt_of_le_of_lt hle hθ
  | some i =>
      by_cases hth : θ ≤ bs
      · left
        refine ⟨i, ?_, ?_, ?_⟩
        · have := bestScan_some_lt (normalize ln) cs 0 (none, 0) i (by rw [hbs])
          rcases this with h | h
          · simp at h
          · omega
        · exact hth
        · simp [hth]
      · right
        refine ⟨fun c hc => ?_, ?_⟩
        · have hle := bestScan_ge (normalize ln) cs 0 (none, 0) c hc
          rw [hbs] at hle
          exact lt_of_le_of_lt hle (lt_of_not_le hth)
        · simp [hth]

/-- One clustering iteration adds exactly one to the total count. -/
theorem clusterStep_sum (θ : ℚ) (ex : Nat) (cs : List Cluster) (ln : String) :
    sumCounts (clusterStep θ ex cs ln) = sumCounts cs + 1 := by
  simp only [clusterStep]
  rcases hbs : bestScan (normalize ln) cs 0 (none, 0) with ⟨bi, bs⟩
  cases bi with
  | none => simp [sumCounts]
  | some i =>
      by_cases hth : θ ≤ bs
      · simp only [hth, if_true]
        apply bumpAt_sum
        have := bestScan_some_lt (normalize ln) cs 0 (none, 0) i (by rw [hbs])
        rcases this with h | h
        · simp at h
        · omega
      · simp only [hth, if_false]
        simp [sumCounts]

/-- Every error-ish line is folded into exactly one cluster: the counts over
all created clusters total the number of error-ish lines processed. -/
theorem clusterPass_sum (θ : ℚ) (ex : Nat) :
    ∀ (errs : List String) (cs : List Cluster),
      sumCounts (errs.foldl (clusterStep θ ex) cs) = sumCounts cs + errs.length := by
  intro errs
  induction errs with
  | nil => intro cs; simp
  | cons e rest ih =>
      intro cs
      simp only [List.foldl_cons, List.length_cons]
      rw [ih (clusterStep θ ex cs e), clusterStep_sum]
      omega

/-- Invariant of the clustering pass: cluster ids are `1, 2, …` in creation
order, representatives are pairwise distinct, and every representative is
the template of some processed line. -/
def ClusterInv (tpl : List String) (cs : List Cluster) : Prop :=
  (cs.map fun c => c.cluster_id) = List.range' 1 cs.length ∧
  (cs.map fun c => c.rep).Nodup ∧
  ∀ r ∈ cs.map fun c => c.rep, r ∈ tpl

theorem clusterStep_inv (θ : ℚ) (ex : Nat) (cs : List Cluster) (ln : String)
    (tpl : List String) (hθ0 : 0 < θ) (hθ1 : θ ≤ 1) (hInv : ClusterInv tpl cs) :
    ClusterInv (tpl ++ [normalize ln]) (clusterStep θ ex cs ln) := by
  obtain ⟨hid, hnd, hsub⟩ := hInv
  rcases clusterStep_cases θ ex cs ln hθ0 with ⟨i, hi, _, heq⟩ | ⟨hlt, heq⟩
  · rw [heq]
    refine ⟨?_, ?_, ?_⟩
    · rw [bumpAt_map_id, bumpAt_length]; exact hid
    · rw [bumpAt_map_rep]; exact hnd
    · rw [bumpAt_map_rep]
      exact fun r hr => List.mem_append_left _ (hsub r hr)
  · have hnew : normalize ln ∉ cs.map fun c => c.rep := by
      intro hmem
      obtain ⟨c, hc, hcr⟩ := List.mem_map.mp hmem
      have h1 : similarity (normalize ln) c.rep = 1 := by
        rw [← hcr]; exact similarity_self _
      have := hlt c hc
      rw [h1] at this
      exact absurd (lt_of_lt_of_le this hθ1) (lt_irrefl 1)
    rw [heq]
    refine ⟨?_, ?_, ?_⟩
    · simp only [List.map_append, List.map_cons, List.map_nil, List.length_append,
        List.length_cons, List.length_nil]
      rw [hid]
      have h := @List.range'_concat 1 1 cs.length
      simp only [Nat.one_mul] at h
      rw [show cs.length + 0 + 1 = cs.length + 1 by omega, h, Nat.add_comm 1 cs.length]
    · simp only [List.map_append, List.map_cons, List.map_nil]
      rw [List.nodup_append]
      exact ⟨hnd, List.nodup_singleton _, by
        intro x hx
        simp only [List.mem_singleton]
        intro hxe
        exact hnew (hxe ▸ hx)⟩
    · simp only [List.map_append, List.map_cons, List.map_nil]
      intro r hr
      rcases List.mem_append.mp hr with h | h
      · exact List.mem_append_left _ (hsub r h)
      · simp at h
        simp [h]

theorem clusterFold_inv (θ : ℚ) (ex : Nat) (hθ0 : 0 < θ) (hθ1 : θ ≤ 1) :
    ∀ (errs : List String) (cs : List Cluster) (tpl : List String),
      ClusterInv tpl cs →
      ClusterInv (tpl ++ errs.map normalize) (errs.foldl (clusterStep θ ex) cs) := by
  intro errs
  induction errs with
  | nil => intro cs tpl h; simpa using h
  | cons e rest ih =>
      intro cs tpl h
      simp only [List.foldl_cons, List.map_cons]
      have h1 := clusterStep_inv θ ex cs e tpl hθ0 hθ1 h
      have h2 := ih (clusterStep θ ex cs e) (tpl ++ [normalize e]) h1
      simpa [List.append_assoc] using h2

/-- The invariant holds of the full clustering pass. -/
theorem clusterPass_inv (θ : ℚ) (ex : Nat) (errs : List String)
    (hθ0 : 0 < θ) (hθ1 : θ ≤ 1) :
    ClusterInv (errs.map normalize) (clusterPass θ ex errs) := by
  have := clusterFold_inv θ ex hθ0 hθ1 errs [] []
    ⟨rfl, List.nodup_nil, by simp⟩
  simpa [clusterPass] using this

/-- The number of clusters never exceeds the number of distinct templates. -/
theorem clusterPass_length_le (θ : ℚ) (ex : Nat) (errs : List String)
    (hθ0 : 0 < θ) (hθ1 : θ ≤ 1) :
    (clusterPass θ ex errs).length ≤ (errs.map normalize).dedup.length := by
  obtain ⟨_, hnd, hsub⟩ := clusterPass_inv θ ex errs hθ0 hθ1
  set reps := (clusterPass θ ex errs).map fun c => c.rep with hreps
  have hlen : (clusterPass θ ex errs).length = reps.length := by simp [hreps]
  rw [hlen, ← List.toFinset_card_of_nodup hnd, ← List.card_toFinset]
  apply Finset.card_le_card
  intro x hx
  rw [List.mem_toFinset] at hx ⊢
  exact hsub x hx

/-! ### Theory of the stable sort -/

/-- The output order of the sort: strictly larger count first; among equal
counts, smaller `cluster_id` (creation order) first. -/
def clusterOrder (x y : Cluster) : Prop :=
  y.count < x.count ∨ (y.count = x.count ∧ x.cluster_id < y.cluster_id)

theorem insertCluster_length (c : Cluster) :
    ∀ acc : List Cluster, (insertCluster acc c).length = acc.length + 1 := by
  intro acc
  induction acc with
  | nil => rfl
  | cons x xs ih =>
      simp only [insertCluster]
      split
      · simp
      · simp [ih]

theorem insertCluster_mem (c y : Cluster) :
    ∀ acc : List Cluster, y ∈ insertCluster acc c ↔ y ∈ acc ∨ y = c := by
  intro acc
  induction acc with
  | nil => simp [insertCluster]
  | cons x xs ih =>
      simp only [insertCluster]
      split
      · constructor
        · intro h
          rcases List.mem_cons.mp h with rfl | h'
          · exact Or.inr rfl
          · exact Or.inl h'
        · intro h
          rcases h with h' | rfl
          · exact List.mem_cons_of_mem _ h'
          · exact List.mem_cons_self _ _
      · constructor
        · intro h
          rcases List.mem_cons.mp h with rfl | h'
          · exact Or.inl (List.mem_cons_self _ _)
          · rcases (ih).mp h' with h'' | rfl
            · exact Or.inl (List.mem_cons_of_mem _ h'')
            · exact Or.inr rfl
        · intro h
          rcases h with h' | rfl
          · rcases List.mem_cons.mp h' with rfl | h''
            · exact List.mem_cons_self _ _
            · exact List.mem_cons_of_mem _ ((ih).mpr (Or.inl h''))
          · exact List.mem_cons_of_mem _ ((ih).mpr (Or.inr rfl))

theorem insertCluster_sum (c : Cluster) :
    ∀ acc : List Cluster, sumCounts (insertCluster acc c) = sumCounts acc + c.count := by
  intro acc
  induction acc with
  | nil => simp [insertCluster, sumCounts]
  | cons x xs ih =>
      simp only [insertCluster]
      split
      · simp [sumCounts]; omega
      · simp only [sumCounts, List.map_cons, List.sum_cons] at ih ⊢
        omega

/-- Inserting an element whose id exceeds every id already present preserves
the order (this is where stability comes from: an equal-count element goes
after the ones already placed). -/
theorem insertCluster_pairwise (c : Cluster) :
    ∀ acc : List Cluster, List.Pairwise clusterOrder acc →
      (∀ a ∈ acc, a.cluster_id < c.cluster_id) →
      List.Pairwise clusterOrder (insertCluster acc c) := by
  intro acc
  induction acc with
  | nil => intro _ _; simp [insertCluster]
  | cons x xs ih =>
      intro hpw hid
      rw [List.pairwise_cons] at hpw
      obtain ⟨hx, hxs⟩ := hpw
      simp only [insertCluster]
      split
      · next hlt =>
          rw [List.pairwise_cons]
          constructor
          · intro y hy
            rcases List.mem_cons.mp hy with rfl | hy'
            · exact Or.inl hlt
            · rcases hx y hy' with h | h
              · exact Or.inl (lt_trans h hlt)
              · exact Or.inl (h.1 ▸ hlt)
          · rw [List.pairwise_cons]
            exact ⟨hx, hxs⟩
      · next hge =>
          rw [List.pairwise_cons]
          constructor
          · intro y hy
            rcases (insertCluster_mem c y xs).mp hy with hy' | rfl
            · exact hx y hy'
            · rcases lt_or_eq_of_le (le_of_not_lt hge) with h | h
              · exact Or.inl h
              · exact Or.inr ⟨h, hid x (List.mem_cons_self _ _)⟩
          · exact ih hxs fun a ha => hid a (List.mem_cons_of_mem _ ha)

theorem sortClusters_pairwise_aux :
    ∀ (l acc : List Cluster), List.Pairwise clusterOrder acc →
      List.Pairwise (fun a b => a.cluster_id < b.cluster_id) l →
      (∀ a ∈ acc, ∀ b ∈ l, a.cluster_id < b.cluster_id) →
      List.Pairwise clusterOrder (l.foldl insertCluster acc) := by
  intro l
  induction l with
  | nil => intro acc h _ _; simpa using h
  | cons x xs ih =>
      intro acc hacc hl hcross
      rw [List.pairwise_cons] at hl
      obtain ⟨hx, hxs⟩ := hl
      simp only [List.foldl_cons]
      apply ih
      · exact insertCluster_pairwise x acc hacc
          fun a ha => hcross a ha x (List.mem_cons_self _ _)
      · exact hxs
      · intro a ha b hb
        rcases (insertCluster_mem x a acc).mp ha with ha' | rfl
        · exact hcross a ha' b (List.mem_cons_of_mem _ hb)
        · exact hx b hb

/-- The sort of a list whose ids increase left to right is ordered by
descending count with ties in id (creation) order. -/
theorem sortClusters_pairwise (l : List Cluster)
    (h : List.Pairwise (fun a b => a.cluster_id < b.cluster_id) l) :
    List.Pairwise clusterOrder (sortClusters l) :=
  sortClusters_pairwise_aux l [] (by simp) h (by simp)

theorem sortClusters_length (l : List Cluster) :
    (sortClusters l).length = l.length := by
  have : ∀ (l acc : List Cluster),
      (l.foldl insertCluster acc).length = acc.length + l.length := by
    intro l
    induction l with
    | nil => intro acc; simp
    | cons x xs ih =>
        intro acc
        simp only [List.foldl_cons, List.length_cons]
        rw [ih, insertCluster_length]
        omega
  simpa using this l []

theorem sortClusters_sum (l : List Cluster) :
    sumCounts (sortClusters l) = sumCounts l := by
  have : ∀ (l acc : List Cluster),
      sumCounts (l.foldl insertCluster acc) = sumCounts acc + sumCounts l := by
    intro l
    induction l with
    | nil => intro acc; simp [sumCounts]
    | cons x xs ih =>
        intro acc
        simp only [List.foldl_cons]
        rw [ih, insertCluster_sum]
        simp only [sumCounts, List.map_cons, List.sum_cons]
        omega
  simpa [sumCounts] using this l []

/-- Increasing-id order of the pass output, from the invariant. -/
theorem clusterPass_pairwise_id (θ : ℚ) (ex : Nat) (errs : List String)
    (hθ0 : 0 < θ) (hθ1 : θ ≤ 1) :
    List.Pairwise (fun a b => a.cluster_id < b.cluster_id)
      (clusterPass θ ex errs) := by
  obtain ⟨hid, _, _⟩ := clusterPass_inv θ ex errs hθ0 hθ1
  have h1 : List.Pairwise (· < ·)
      ((clusterPass θ ex errs).map fun c => c.cluster_id) := by
    rw [hid]
    exact List.pairwise_lt_range' _ _
  exact (List.pairwise_map).mp h1

/-! ### Theory of the histogram builder -/

/-- Total of the values of a counter. -/
def sumVals (m : List (String × Nat)) : Nat := (m.map fun p => p.2).sum

theorem bumpCounter_sum (key : String) :
    ∀ m : List (String × Nat), sumVals (bumpCounter key m) = sumVals m + 1 := by
  intro m
  induction m with
  | nil => simp [bumpCounter, sumVals]
  | cons p rest ih =>
      rcases p with ⟨k, v⟩
      simp only [bumpCounter]
      split
      · simp [sumVals]; omega
      · simp only [sumVals, List.map_cons, List.sum_cons] at ih ⊢
        omega

/-- With a nonzero bin size the loop never fails, counts every line with a
recognized level into `level_counts`, and every line with a parseable
timestamp into `time_bins`. -/
theorem levelsLoop_ok (bin : Nat) (hbin : bin ≠ 0) :
    ∀ (lines : List String) (lc tb : List (String × Nat)),
      ∃ lc' tb', levelsLoop bin lines lc tb = .ok (lc', tb') ∧
        sumVals lc' = sumVals lc +
          (lines.filter fun s => (parse_level s).isSome).length ∧
        sumVals tb' = sumVals tb +
          (lines.filter fun s => (parse_ts s).isSome).length := by
  intro lines
  induction lines with
  | nil => intro lc tb; exact ⟨lc, tb, rfl, by simp, by simp⟩
  | cons ln rest ih =>
      intro lc tb
      rcases hpl : parse_level ln with _ | lvl <;> rcases hts : parse_ts ln with _ | ts
      · have hstep : levelsLoop bin (ln :: rest) lc tb = levelsLoop bin rest lc tb := by
          simp [levelsLoop, hpl, hts]
        obtain ⟨lc', tb', h1, h2, h3⟩ := ih lc tb
        refine ⟨lc', tb', hstep ▸ h1, ?_, ?_⟩ <;>
          simp only [List.filter_cons, hpl, hts, Option.isSome_none, Bool.false_eq_true,
            reduceIte] <;> omega
      · have hstep : levelsLoop bin (ln :: rest) lc tb =
            levelsLoop bin rest lc (bumpCounter (isoformatDT (bucketOf ts bin)) tb) := by
          simp [levelsLoop, hpl, hts, hbin]
        obtain ⟨lc', tb', h1, h2, h3⟩ := ih lc (bumpCounter (isoformatDT (bucketOf ts bin)) tb)
        rw [bumpCounter_sum] at h3
        refine ⟨lc', tb', hstep ▸ h1, ?_, ?_⟩ <;>
          simp only [List.filter_cons, hpl, hts, Option.isSome_none, Option.isSome_some,
            Bool.false_eq_true, reduceIte, List.length_cons] <;> omega
      · have hstep : levelsLoop bin (ln :: rest) lc tb =
            levelsLoop bin rest (bumpCounter lvl lc) tb := by
          simp [levelsLoop, hpl, hts]
        obtain ⟨lc', tb', h1, h2, h3⟩ := ih (bumpCounter lvl lc) tb
        rw [bumpCounter_sum] at h2
        refine ⟨lc', tb', hstep ▸ h1, ?_, ?_⟩ <;>
          simp only [List.filter_cons, hpl, hts, Option.isSome_none, Option.isSome_some,
            Bool.false_eq_true, reduceIte, List.length_cons] <;> omega
      · have hstep : levelsLoop bin (ln :: rest) lc tb =
            levelsLoop bin rest (bumpCounter lvl lc)
              (bumpCounter (isoformatDT (bucketOf ts bin)) tb) := by
          simp [levelsLoop, hpl, hts, hbin]
        obtain ⟨lc', tb', h1, h2, h3⟩ :=
          ih (bumpCounter lvl lc) (bumpCounter (isoformatDT (bucketOf ts bin)) tb)
        rw [bumpCounter_sum] at h2
        rw [bumpCounter_sum] at h3
        refine ⟨lc', tb', hstep ▸ h1, ?_, ?_⟩ <;>
          simp only [List.filter_cons, hpl, hts, Option.isSome_some,
            reduceIte, List.length_cons] <;> omega

/-- A zero bin size raises as soon as a line has a parseable timestamp. -/
theorem levelsLoop_zeroDiv :
    ∀ (lines : List String) (lc tb : List (String × Nat)),
      (∃ s ∈ lines, (parse_ts s).isSome) →
      levelsLoop 0 lines lc tb = .error .zeroDivision := by
  intro lines
  induction lines with
  | nil => intro lc tb h; simp at h
  | cons ln rest ih =>
      intro lc tb h
      simp only [levelsLoop]
      rcases hts : parse_ts ln with _ | ts
      · obtain ⟨s, hs, hsome⟩ := h
        rcases List.mem_cons.mp hs with rfl | hmem
        · rw [hts] at hsome; simp at hsome
        · exact ih _ _ ⟨s, hmem, hsome⟩
      · simp

/-! ### Theory of the timestamp mask (step 1 of the normalizer) -/

/-- With a single existing cluster and a strictly positive score, threshold 0
always takes the join branch (the `sc > best_sc` test passes because the
score exceeds the initial `best_sc = 0.0`). -/
theorem clusterStep_single_pos (ex : Nat) (ln : String) (c1 : Cluster)
    (h : 0 < similarity (normalize ln) c1.rep) :
    clusterStep 0 ex [c1] ln = [bumpCluster ex ln c1] := by
  have h0 : ((none, (0 : ℚ)) : Option Nat × ℚ).2 < similarity (normalize ln) c1.rep := by
    simpa using h
  simp only [clusterStep, bestScan, if_pos h0]
  show (if (0 : ℚ) ≤ similarity (normalize ln) c1.rep
        then bumpAt ex ln 0 [c1]
        else [c1] ++ [⟨[c1].length + 1, normalize ln, 1, [ln]⟩]) = _
  rw [if_pos (le_of_lt h)]
  rfl

/-- At threshold 0, as long as every line scores positively against the lone
cluster's representative, the pass keeps a single cluster and counts every
line into it. -/
theorem clusterFoldZero (ex : Nat) (n1 : String) :
    ∀ (ls : List String) (m : Nat) (exs : List String),
      (∀ l ∈ ls, 0 < similarity (normalize l) n1) →
      ∃ E, ls.foldl (clusterStep 0 ex) [⟨1, n1, m, exs⟩] =
        [⟨1, n1, m + ls.length, E⟩] := by
  intro ls
  induction ls with
  | nil => intro m exs _; exact ⟨exs, by simp⟩
  | cons s rest ih =>
      intro m exs h
      simp only [List.foldl_cons]
      rw [clusterStep_single_pos ex s ⟨1, n1, m, exs⟩
        (h s (List.mem_cons_self _ _))]
      have hb : bumpCluster ex s ⟨1, n1, m, exs⟩ =
          ⟨1, n1, m + 1, if exs.length < ex then exs ++ [s] else exs⟩ := rfl
      rw [hb]
      obtain ⟨E, hE⟩ := ih (m + 1) (if exs.length < ex then exs ++ [s] else exs)
        fun l hl => h l (List.mem_cons_of_mem _ hl)
      have harith : m + 1 + rest.length = m + (s :: rest).length := by
        simp [List.length_cons]; omega
      rw [harith] at hE
      exact ⟨E, hE⟩

/-- Bumping a cluster with a line different from `l` never puts `l` into any
example list. -/
theorem bumpAt_examples (ex : Nat) (s l : String) (hsl : s ≠ l) :
    ∀ (i : Nat) (cs : List Cluster), (∀ c ∈ cs, l ∉ c.examples) →
      ∀ c ∈ bumpAt ex s i cs, l ∉ c.examples := by
  intro i
  induction i with
  | zero =>
      intro cs hcs c hc
      cases cs with
      | nil => simp [bumpAt] at hc
      | cons c0 cs' =>
          simp only [bumpAt] at hc
          rcases List.mem_cons.mp hc with hceq | hmem
          · rw [hceq]
            simp only [bumpCluster]
            split
            · intro hin
              rcases List.mem_append.mp hin with hin' | hin'
              · exact hcs c0 (List.mem_cons_self _ _) hin'
              · simp at hin'
                exact hsl hin'.symm
            · exact hcs c0 (List.mem_cons_self _ _)
          · exact hcs c (List.mem_cons_of_mem _ hmem)
  | succ i' ih =>
      intro cs hcs c hc
      cases cs with
      | nil => simp [bumpAt] at hc
      | cons c0 cs' =>
          simp only [bumpAt] at hc
          rcases List.mem_cons.mp hc with hceq | hmem
          · rw [hceq]
            exact hcs c0 (List.mem_cons_self _ _)
          · exact ih cs' (fun c' hc' => hcs c' (List.mem_cons_of_mem _ hc')) c hmem

/-- When the line's template equals the first cluster's representative (and
representatives are pairwise distinct), the scan gives the first cluster the
unique maximal score 1 and any threshold in (0,1] joins it. -/
theorem clusterStep_head (θ : ℚ) (ex : Nat) (s : String) (c1 : Cluster)
    (rest : List Cluster) (hθ1 : θ ≤ 1)
    (hs : normalize s = c1.rep)
    (hnd : c1.rep ∉ rest.map fun c => c.rep) :
    clusterStep θ ex (c1 :: rest) s = bumpCluster ex s c1 :: rest := by
  have h1 : similarity (normalize s) c1.rep = 1 := by
    rw [hs]; exact similarity_self _
  have h2 : ∀ c ∈ rest, similarity (normalize s) c.rep < 1 := by
    intro c hc
    have hne : normalize s ≠ c.rep := by
      rw [hs]
      intro he
      exact hnd (he ▸ List.mem_map_of_mem (fun c => c.rep) hc)
    exact lt_of_le_of_ne (similarity_le_one _ _)
      fun he => hne ((similarity_eq_one_iff _ _).mp he)
  have hbest := bestScan_head_one (normalize s) c1 rest h1 h2
  simp only [clusterStep, hbest]
  show (if θ ≤ (1 : ℚ) then bumpAt ex s 0 (c1 :: rest)
        else (c1 :: rest) ++ [⟨(c1 :: rest).length + 1, normalize s, 1, [s]⟩]) = _
  rw [if_pos hθ1]
  rfl

/-- Main invariant for first-cluster duplicates: starting from a state whose
first cluster has id 1 and representative `n1`, every processed line whose
template is `n1` is appended to the first cluster's examples (the example cap
is generous enough), and the raw line `l` (of template `n1`) never reaches
any other cluster's examples. -/
theorem clusterFold_first (θ : ℚ) (ex : Nat) (l n1 : String)
    (hθ0 : 0 < θ) (hθ1 : θ ≤ 1) (hln : normalize l = n1) :
    ∀ (ls : List String) (c1 : Cluster) (rest : List Cluster) (pc : Nat),
      c1.cluster_id = 1 → c1.rep = n1 →
      (∃ tpl, ClusterInv tpl (c1 :: rest)) →
      c1.examples.length ≤ pc →
      pc + ls.length ≤ ex →
      (∀ c ∈ rest, l ∉ c.examples) →
      ∃ c1' rest',
        ls.foldl (clusterStep θ ex) (c1 :: rest) = c1' :: rest' ∧
        c1'.cluster_id = 1 ∧ c1'.rep = n1 ∧
        c1'.examples.count l = c1.examples.count l + ls.count l ∧
        ∀ c ∈ rest', l ∉ c.examples := by
  intro ls
  induction ls with
  | nil =>
      intro c1 rest pc hid hrep _ _ _ hrest
      exact ⟨c1, rest, rfl, hid, hrep, by simp, hrest⟩
  | cons s ls' ih =>
      intro c1 rest pc hid hrep hinv hexlen hcap hrest
      obtain ⟨tpl, hItpl⟩ := hinv
      have hinv' : ∃ tpl', ClusterInv tpl' (clusterStep θ ex (c1 :: rest) s) :=
        ⟨tpl ++ [normalize s], clusterStep_inv θ ex (c1 :: rest) s tpl hθ0 hθ1 hItpl⟩
      have hnd : c1.rep ∉ rest.map fun c => c.rep := by
        obtain ⟨_, hnodup, _⟩ := hItpl
        simp only [List.map_cons] at hnodup
        exact (List.nodup_cons.mp hnodup).1
      simp only [List.foldl_cons]
      by_cases hs : normalize s = n1
      · -- the line has the first cluster's template: it joins cluster 1
        have hstep : clusterStep θ ex (c1 :: rest) s = bumpCluster ex s c1 :: rest :=
          clusterStep_head θ ex s c1 rest hθ1 (by rw [hs, hrep]) hnd
        have hlt : c1.examples.length < ex := by
          simp only [List.length_cons] at hcap
          omega
        have hbc : bumpCluster ex s c1 =
            ⟨c1.cluster_id, c1.rep, c1.count + 1, c1.examples ++ [s]⟩ := by
          simp [bumpCluster, hlt]
        rw [hstep, hbc]
        have hinv2 : ∃ tpl', ClusterInv tpl'
            (({ cluster_id := c1.cluster_id, rep := c1.rep, count := c1.count + 1,
                examples := c1.examples ++ [s] } : Cluster) :: rest) := by
          rw [← hbc, ← hstep]; exact hinv'
        obtain ⟨c1', rest', h1, h2, h3, h4, h5⟩ :=
          ih ⟨c1.cluster_id, c1.rep, c1.count + 1, c1.examples ++ [s]⟩ rest (pc + 1)
            hid hrep hinv2 (by simp; omega)
            (by simp only [List.length_cons] at hcap; omega) hrest
        refine ⟨c1', rest', h1, h2, h3, ?_, h5⟩
        rw [h4]
        by_cases hsl : s = l
        · subst hsl
          simp [List.count_append, List.count_cons]
          omega
        · have hne1 : (l == s) = false := by
            simp only [beq_eq_false_iff_ne, ne_eq]
            exact fun he => hsl he.symm
          have hne2 : (s == l) = false := by
            simp only [beq_eq_false_iff_ne, ne_eq]
            exact hsl
          simp [List.count_append, List.count_cons, hne1, hne2]
      · -- a line with a different template: cluster 1 keeps its examples'
        -- `l`-count, and `l` never enters another cluster's examples
        have hsl : s ≠ l := fun he => hs (he ▸ hln)
        rcases clusterStep_cases θ ex (c1 :: rest) s hθ0 with
          ⟨i, hi, _, heq⟩ | ⟨_, heq⟩
        · cases i with
          | zero =>
              have hstep : clusterStep θ ex (c1 :: rest) s =
                  bumpCluster ex s c1 :: rest := heq
              rw [hstep]
              have hne1 : (l == s) = false := by
                simp only [beq_eq_false_iff_ne, ne_eq]
                exact fun he => hsl he.symm
              have hcnt : (bumpCluster ex s c1).examples.count l =
                  c1.examples.count l := by
                simp only [bumpCluster]
                split
                · simp [List.count_append, List.count_cons, hne1, hsl]
                · rfl
              have hlen : (bumpCluster ex s c1).examples.length ≤
                  c1.examples.length + 1 := by
                simp only [bumpCluster]
                split <;> simp
              obtain ⟨c1', rest', h1, h2, h3, h4, h5⟩ :=
                ih (bumpCluster ex s c1) rest (pc + 1)
                  (by simp [bumpCluster, hid]) (by simp [bumpCluster, hrep])
                  (hstep ▸ hinv') (by omega)
                  (by simp only [List.length_cons] at hcap; omega) hrest
              refine ⟨c1', rest', h1, h2, h3, ?_, h5⟩
              rw [h4, hcnt]
              have hne2 : (s == l) = false := by
                simp only [beq_eq_false_iff_ne, ne_eq]
                exact hsl
              have hne1 : (l == s) = false := by
                simp only [beq_eq_false_iff_ne, ne_eq]
                exact fun he => hsl he.symm
              simp [List.count_cons, hne1, hne2]
          | succ i' =>
              have hstep : clusterStep θ ex (c1 :: rest) s =
                  c1 :: bumpAt ex s i' rest := heq
              rw [hstep]
              have hrest' : ∀ c ∈ bumpAt ex s i' rest, l ∉ c.examples :=
                bumpAt_examples ex s l hsl i' rest hrest
              obtain ⟨c1', rest', h1, h2, h3, h4, h5⟩ :=
                ih c1 (bumpAt ex s i' rest) (pc + 1) hid hrep
                  (hstep ▸ hinv') (by omega)
                  (by simp only [List.length_cons] at hcap; omega) hrest'
              refine ⟨c1', rest', h1, h2, h3, ?_, h5⟩
              rw [h4]
              have hne2 : (s == l) = false := by
                simp only [beq_eq_false_iff_ne, ne_eq]
                exact hsl
              have hne1 : (l == s) = false := by
                simp only [beq_eq_false_iff_ne, ne_eq]
                exact fun he => hsl he.symm
              simp [List.count_cons, hne1, hne2]
        · have hstep : clusterStep θ ex (c1 :: rest) s =
              c1 :: (rest ++ [⟨(c1 :: rest).length + 1, normalize s, 1, [s]⟩]) := by
            rw [heq]; simp
          rw [hstep]
          have hrest' : ∀ c ∈ rest ++ [⟨(c1 :: rest).length + 1, normalize s, 1, [s]⟩],
              l ∉ c.examples := by
            intro c hc
            rcases List.mem_append.mp hc with hc' | hc'
            · exact hrest c hc'
            · simp at hc'
              rw [hc']
              simp only [List.mem_singleton]
              exact fun he => hsl he.symm
          obtain ⟨c1', rest', h1, h2, h3, h4, h5⟩ :=
            ih c1 (rest ++ [⟨(c1 :: rest).length + 1, normalize s, 1, [s]⟩]) (pc + 1)
              hid hrep (hstep ▸ hinv') (by omega)
              (by simp only [List.length_cons] at hcap; omega) hrest'
          refine ⟨c1', rest', h1, h2, h3, ?_, h5⟩
          rw [h4]
          have hne2 : (s == l) = false := by
            simp only [beq_eq_false_iff_ne, ne_eq]
            exact hsl
          have hne1 : (l == s) = false := by
            simp only [beq_eq_false_iff_ne, ne_eq]
            exact fun he => hsl he.symm
          simp [List.count_cons, hne1, hne2]

/-- Cap-free companion to the first-cluster invariant: with no assumption on
the example cap, every processed line whose template is the first cluster's
representative still bumps the first cluster's count (so the count dominates
the number of such lines), and the raw line `l` (of that template) never
reaches any other cluster's examples. -/
theorem clusterFold_count (θ : ℚ) (ex : Nat) (l n1 : String)
    (hθ0 : 0 < θ) (hθ1 : θ ≤ 1) (hln : normalize l = n1) :
    ∀ (ls : List String) (c1 : Cluster) (rest : List Cluster),
      c1.cluster_id = 1 → c1.rep = n1 →
      (∃ tpl, ClusterInv tpl (c1 :: rest)) →
      (∀ c ∈ rest, l ∉ c.examples) →
      ∃ c1' rest',
        ls.foldl (clusterStep θ ex) (c1 :: rest) = c1' :: rest' ∧
        c1'.cluster_id = 1 ∧ c1'.rep = n1 ∧
        c1.count + (ls.filter fun s => normalize s = n1).length ≤ c1'.count ∧
        ∀ c ∈ rest', l ∉ c.examples := by
  intro ls
  induction ls with
  | nil =>
      intro c1 rest hid hrep _ hrest
      exact ⟨c1, rest, rfl, hid, hrep, by simp, hrest⟩
  | cons s ls' ih =>
      intro c1 rest hid hrep hinv hrest
      obtain ⟨tpl, hItpl⟩ := hinv
      have hinv' : ∃ tpl', ClusterInv tpl' (clusterStep θ ex (c1 :: rest) s) :=
        ⟨tpl ++ [normalize s], clusterStep_inv θ ex (c1 :: rest) s tpl hθ0 hθ1 hItpl⟩
      have hnd : c1.rep ∉ rest.map fun c => c.rep := by
        obtain ⟨_, hnodup, _⟩ := hItpl
        simp only [List.map_cons] at hnodup
        exact (List.nodup_cons.mp hnodup).1
      simp only [List.foldl_cons]
      by_cases hs : normalize s = n1
      · -- the line has the first cluster's template: its count is bumped
        have hstep : clusterStep θ ex (c1 :: rest) s = bumpCluster ex s c1 :: rest :=
          clusterStep_head θ ex s c1 rest hθ1 (by rw [hs, hrep]) hnd
        rw [hstep]
        have hbc : (bumpCluster ex s c1).count = c1.count + 1 := by
          simp only [bumpCluster]
        obtain ⟨c1', rest', h1, h2, h3, h4, h5⟩ :=
          ih (bumpCluster ex s c1) rest
            (by simp [bumpCluster, hid]) (by simp [bumpCluster, hrep])
            (hstep ▸ hinv') hrest
        refine ⟨c1', rest', h1, h2, h3, ?_, h5⟩
        rw [hbc] at h4
        simp only [List.filter_cons, hs]
        simp only [decide_True, if_true, List.length_cons]
        omega
      · have hsl : s ≠ l := fun he => hs (he ▸ hln)
        have hfc : (List.filter (fun s => decide (normalize s = n1)) (s :: ls')).length =
            (List.filter (fun s => decide (normalize s = n1)) ls').length := by
          simp [List.filter_cons, hs]
        rcases clusterStep_cases θ ex (c1 :: rest) s hθ0 with
          ⟨i, hi, _, heq⟩ | ⟨_, heq⟩
        · cases i with
          | zero =>
              have hstep : clusterStep θ ex (c1 :: rest) s =
                  bumpCluster ex s c1 :: rest := heq
              rw [hstep]
              have hbc : (bumpCluster ex s c1).count = c1.count + 1 := by
                simp only [bumpCluster]
              obtain ⟨c1', rest', h1, h2, h3, h4, h5⟩ :=
                ih (bumpCluster ex s c1) rest
                  (by simp [bumpCluster, hid]) (by simp [bumpCluster, hrep])
                  (hstep ▸ hinv') hrest
              refine ⟨c1', rest', h1, h2, h3, ?_, h5⟩
              rw [hbc] at h4
              rw [hfc]
              omega
          | succ i' =>
              have hstep : clusterStep θ ex (c1 :: rest) s =
                  c1 :: bumpAt ex s i' rest := heq
              rw [hstep]
              have hrest' : ∀ c ∈ bumpAt ex s i' rest, l ∉ c.examples :=
                bumpAt_examples ex s l hsl i' rest hrest
              obtain ⟨c1', rest', h1, h2, h3, h4, h5⟩ :=
                ih c1 (bumpAt ex s i' rest) hid hrep (hstep ▸ hinv') hrest'
              refine ⟨c1', rest', h1, h2, h3, ?_, h5⟩
              rw [hfc]
              omega
        · have hstep : clusterStep θ ex (c1 :: rest) s =
              c1 :: (rest ++ [⟨(c1 :: rest).length + 1, normalize s, 1, [s]⟩]) := by
            rw [heq]; simp
          rw [hstep]
          have hrest' : ∀ c ∈ rest ++ [⟨(c1 :: rest).length + 1, normalize s, 1, [s]⟩],
              l ∉ c.examples := by
            intro c hc
            rcases List.mem_append.mp hc with hc' | hc'
            · exact hrest c hc'
            · simp at hc'
              rw [hc']
              simp only [List.mem_singleton]
              exact fun he => hsl he.symm
          obtain ⟨c1', rest', h1, h2, h3, h4, h5⟩ :=
            ih c1 (rest ++ [⟨(c1 :: rest).length + 1, normalize s, 1, [s]⟩])
              hid hrep (hstep ▸ hinv') hrest'
          refine ⟨c1', rest', h1, h2, h3, ?_, h5⟩
          rw [hfc]
          omega

/-! ### The claims -/

theorem sumCounts_take_le (k : Nat) (l : List Cluster) :
    sumCounts (l.take k) ≤ sumCounts l := by
  conv_rhs => rw [← List.take_append_drop k l]
  simp only [sumCounts, List.map_append, List.sum_append]
  exact Nat.le_add_right _ _

/-- Claim C7: for a missing file both tools fail with the distinct
file-not-found error before any processing and never return empty results;
for an existing but empty file they return empty/zero aggregates as a
non-error result. -/
theorem c7_missing_vs_empty :
    (∀ bin : Nat, analyze_levels none bin = .error .fileNotFound) ∧
    (∀ (θ : ℚ) (k ex : Nat), cluster_errors none θ k ex = .error .fileNotFound) ∧
    (∀ bin : Nat, analyze_levels (some []) bin = .ok ⟨0, [], [], bin⟩) ∧
    (∀ (θ : ℚ) (k ex : Nat), cluster_errors (some []) θ k ex = .ok ⟨0, θ, []⟩) :=
  ⟨fun _ => rfl, fun _ _ _ => rfl, fun _ => rfl,
    fun θ k ex => by simp [cluster_errors, clusterPass, sortClusters]⟩

/-- Claim C9: `analyze_levels` validates only the existence of the file, not
`bin_minutes`; with `bin_minutes = 0` and at least one line with a parseable
timestamp, the unguarded `ts.minute // bin_minutes` raises
`ZeroDivisionError`. -/
theorem c9_zero_bin_divides (lines : List String)
    (h : ∃ s ∈ lines, (parse_ts s).isSome) :
    analyze_levels (some lines) 0 = .error .zeroDivision := by
  show (levelsLoop 0 lines [] []).map _ = _
  rw [levelsLoop_zeroDiv lines [] [] h]
  rfl

theorem c9_zero_bin_divides_witness :
    analyze_levels (some ["2026-01-01 10:07:30 ERROR x"]) 0 = .error .zeroDivision :=
  c9_zero_bin_divides ["2026-01-01 10:07:30 ERROR x"] (by decide)

/-- Claim C10: every error-ish line lands in exactly one cluster, so before
truncation the counts over all created clusters sum to `extracted_errorish`,
and the truncated, returned list's counts sum to at most that. -/
theorem c10_counts_partition (lines : List String) (θ : ℚ) (k ex : Nat)
    (r : ClustersResult)
    (h : cluster_errors (some lines) θ k ex = .ok r) :
    sumCounts (clusterPass θ ex (lines.filter fun l => is_errorish l)) =
      r.extracted_errorish ∧
    sumCounts r.clusters ≤ r.extracted_errorish := by
  have heq : cluster_errors (some lines) θ k ex = .ok
      ⟨(lines.filter fun l => is_errorish l).length, θ,
        (sortClusters (clusterPass θ ex (lines.filter fun l => is_errorish l))).take k⟩ :=
    rfl
  rw [heq] at h
  have hr := Except.ok.inj h
  rw [← hr]
  have hsum : sumCounts (clusterPass θ ex (lines.filter fun l => is_errorish l)) =
      (lines.filter fun l => is_errorish l).length := by
    have := clusterPass_sum θ ex (lines.filter fun l => is_errorish l) []
    simpa [clusterPass, sumCounts] using this
  refine ⟨hsum, ?_⟩
  calc sumCounts ((sortClusters (clusterPass θ ex
          (lines.filter fun l => is_errorish l))).take k)
      ≤ sumCounts (sortClusters (clusterPass θ ex
          (lines.filter fun l => is_errorish l))) := sumCounts_take_le _ _
    _ = sumCounts (clusterPass θ ex (lines.filter fun l => is_errorish l)) :=
        sortClusters_sum _
    _ = (lines.filter fun l => is_errorish l).length := hsum

theorem c10_counts_partition_witness :
    sumCounts (clusterPass (mkRat 1 2) 3 (["FATAL", "panic"].filter fun l =>
      is_errorish l)) = 2 ∧
    sumCounts (⟨2, mkRat 1 2, [⟨1, "<LEVEL>", 1, ["FATAL"]⟩]⟩ :
      ClustersResult).clusters ≤ 2 :=
  c10_counts_partition ["FATAL", "panic"] (mkRat 1 2) 1 3
    ⟨2, mkRat 1 2, [⟨1, "<LEVEL>", 1, ["FATAL"]⟩]⟩ (by decide)

/-- Claim C5: a line with a parseable timestamp is bucketed under the key
with minute replaced by `(minute / bin_minutes) * bin_minutes` and seconds
zeroed, formatted `YYYY-MM-DD HH:MM:SS`. -/
theorem c5_bucketing (s : String) (ts : PDateTime) (bin : Nat)
    (hts : parse_ts s = some ts) (hbin : 0 < bin) :
    ∃ r, analyze_levels (some [s]) bin = .ok r ∧
      r.time_bins = [(pad4 ts.year ++ "-" ++ pad2 ts.month ++ "-" ++ pad2 ts.day
        ++ " " ++ pad2 ts.hour ++ ":" ++ pad2 (ts.minute / bin * bin) ++ ":" ++
        pad2 0, 1)] := by
  refine ⟨⟨1, (match parse_level s with
               | some lvl => bumpCounter lvl []
               | none => []),
      [(isoformatDT (bucketOf ts bin), 1)], bin⟩, ?_, rfl⟩
  show (levelsLoop bin [s] [] []).map _ = _
  simp only [levelsLoop, hts]
  rw [if_neg (by omega : ¬ bin = 0)]
  rfl

theorem c5_bucketing_witness :
    (∃ r, analyze_levels (some ["2026-01-01 10:07:30 ERROR x"]) 5 = .ok r ∧
      r.time_bins = [("2026-01-01 10:05:00", 1)]) ∧
    ∃ r, analyze_levels (some ["2026-01-01 10:00:00 WARN y"]) 5 = .ok r ∧
      r.time_bins = [("2026-01-01 10:00:00", 1)] := by
  constructor
  · obtain ⟨r, h1, h2⟩ := c5_bucketing "2026-01-01 10:07:30 ERROR x"
      ⟨2026, 1, 1, 10, 7, 30⟩ 5 (by decide) (by decide)
    exact ⟨r, h1, by rw [h2]; decide⟩
  · obtain ⟨r, h1, h2⟩ := c5_bucketing "2026-01-01 10:00:00 WARN y"
      ⟨2026, 1, 1, 10, 0, 0⟩ 5 (by decide) (by decide)
    exact ⟨r, h1, by rw [h2]; decide⟩

/-- Claim C6: malformed timestamps (such as month 13 in a regex-matched
fragment, or a `T`-separated match that `strptime`'s space-separated format
rejects), absent level tags and unmatched lines never make `analyze_levels`
fail (for a positive bin size): such fields count as absent, the affected
line is excluded from `level_counts` and `time_bins` accordingly, yet every
line is counted in `total_lines`. -/
theorem c6_unparsable_fields :
    parse_ts "2021-13-01 10:00:00 oops" = none ∧
    parse_ts "2021-01-02T03:04:05 oops" = none ∧
    parse_level "no tag here 123" = none ∧
    ∀ (lines : List String) (bin : Nat), 0 < bin →
      ∃ r, analyze_levels (some lines) bin = .ok r ∧
        r.total_lines = lines.length ∧
        sumVals r.level_counts =
          (lines.filter fun s => (parse_level s).isSome).length ∧
        sumVals r.time_bins =
          (lines.filter fun s => (parse_ts s).isSome).length := by
  refine ⟨by decide, by decide, by decide, ?_⟩
  intro lines bin hbin
  obtain ⟨lc', tb', h1, h2, h3⟩ := levelsLoop_ok bin (by omega) lines [] []
  refine ⟨⟨lines.length, lc', tb', bin⟩, ?_, rfl, ?_, ?_⟩
  · show (levelsLoop bin lines [] []).map _ = _
    rw [h1]
    rfl
  · rw [h2]; simp [sumVals]
  · rw [h3]; simp [sumVals]

theorem c6_unparsable_fields_witness :
    parse_ts "2021-13-01 10:00:00 oops" = none ∧
    ∃ r, analyze_levels (some ["2021-13-01 10:00:00 oops"]) 5 = .ok r ∧
      r.total_lines = 1 ∧ sumVals r.level_counts = 0 ∧ sumVals r.time_bins = 0 := by
  refine ⟨c6_unparsable_fields.1, ?_⟩
  obtain ⟨r, h1, h2, h3, h4⟩ :=
    c6_unparsable_fields.2.2.2 ["2021-13-01 10:00:00 oops"] 5 (by decide)
  refine ⟨r, h1, by simpa using h2, by rw [h3]; decide, by rw [h4]; decide⟩

/-- Claim C3: the returned cluster list is sorted by non-increasing count
with ties in creation order, and its length is at most
`min top_k (number of distinct templates)`, for any threshold in (0,1]. -/
theorem c3_sorted_truncated (lines : List String) (θ : ℚ) (k ex : Nat)
    (r : ClustersResult) (hθ0 : 0 < θ) (hθ1 : θ ≤ 1)
    (h : cluster_errors (some lines) θ k ex = .ok r) :
    List.Pairwise clusterOrder r.clusters ∧
    r.clusters.length ≤
      min k (((lines.filter fun l => is_errorish l).map normalize).dedup.length) := by
  have heq : cluster_errors (some lines) θ k ex = .ok
      ⟨(lines.filter fun l => is_errorish l).length, θ,
        (sortClusters (clusterPass θ ex (lines.filter fun l => is_errorish l))).take k⟩ :=
    rfl
  rw [heq] at h
  have hr := Except.ok.inj h
  rw [← hr]
  constructor
  · exact List.Pairwise.sublist (List.take_sublist k _)
      (sortClusters_pairwise _ (clusterPass_pairwise_id θ ex _ hθ0 hθ1))
  · have h1 : ((sortClusters (clusterPass θ ex
        (lines.filter fun l => is_errorish l))).take k).length =
        min k (sortClusters (clusterPass θ ex
          (lines.filter fun l => is_errorish l))).length := List.length_take _ _
    have h2 := sortClusters_length (clusterPass θ ex (lines.filter fun l => is_errorish l))
    have h3 := clusterPass_length_le θ ex (lines.filter fun l => is_errorish l) hθ0 hθ1
    show ((sortClusters (clusterPass θ ex
        (lines.filter fun l => is_errorish l))).take k).length ≤ _
    omega

theorem c3_sorted_truncated_witness :
    List.Pairwise clusterOrder
      ((⟨3, 1, [⟨1, "<LEVEL> a", 1, ["error a"]⟩, ⟨2, "panic zz", 1, ["panic zz"]⟩]⟩ :
        ClustersResult)).clusters ∧
    ((⟨3, 1, [⟨1, "<LEVEL> a", 1, ["error a"]⟩, ⟨2, "panic zz", 1, ["panic zz"]⟩]⟩ :
        ClustersResult)).clusters.length ≤
      min 2 (((["error a", "panic zz", "error b"].filter fun l =>
        is_errorish l).map normalize).dedup.length) :=
  c3_sorted_truncated ["error a", "panic zz", "error b"] 1 2 3
    ⟨3, 1, [⟨1, "<LEVEL> a", 1, ["error a"]⟩, ⟨2, "panic zz", 1, ["panic zz"]⟩]⟩
    zero_lt_one le_rfl (by decide)

/-- Claim C1, refuted as stated: at threshold 0 a line whose best similarity
is exactly 0 starts a new cluster (the scan updates only on `sc > best_sc`
with `best_sc = 0.0`), so two error-ish lines with no common characters in
their templates form two clusters, not one. -/
theorem c1_counterexample :
    ((cluster_errors (some ["FATAL", "panic"]) 0 10 3).toOption.map
      fun r => r.clusters.length) = some 2 := by decide

/-- Claim C1 (amended): at threshold 0 every error-ish line whose template
has strictly positive similarity to the first error-ish line's template
joins the first cluster, so in that case the pass yields exactly one cluster
whose count is the number of error-ish lines; a line scoring exactly 0
against every representative starts a new cluster instead. -/
theorem c1_threshold_zero_amended (lines : List String) (k ex : Nat)
    (hne : (lines.filter fun l => is_errorish l) ≠ [])
    (hpos : ∀ l ∈ lines.filter fun l => is_errorish l,
      0 < similarity (normalize l)
        (normalize ((lines.filter fun l => is_errorish l).headI)))
    (hk : 0 < k) :
    ∃ r, cluster_errors (some lines) 0 k ex = .ok r ∧
      r.clusters.length = 1 ∧
      r.clusters.headI.count = (lines.filter fun l => is_errorish l).length ∧
      r.extracted_errorish = (lines.filter fun l => is_errorish l).length := by
  obtain ⟨e, rest0, herrs⟩ := List.exists_cons_of_ne_nil hne
  have hfirst : clusterStep 0 ex [] e = [⟨1, normalize e, 1, [e]⟩] := by
    simp [clusterStep, bestScan]
  have hhead : (lines.filter fun l => is_errorish l).headI = e := by rw [herrs]; rfl
  have hpos' : ∀ l ∈ rest0, 0 < similarity (normalize l) (normalize e) := by
    intro l hl
    have := hpos l (by rw [herrs]; exact List.mem_cons_of_mem _ hl)
    rwa [hhead] at this
  obtain ⟨E, hE⟩ := clusterFoldZero ex (normalize e) rest0 1 [e] hpos'
  have hpass : clusterPass 0 ex (lines.filter fun l => is_errorish l) =
      [⟨1, normalize e, 1 + rest0.length, E⟩] := by
    rw [herrs]
    show (e :: rest0).foldl (clusterStep 0 ex) [] = _
    rw [List.foldl_cons, hfirst, hE]
  have hsort : sortClusters [(⟨1, normalize e, 1 + rest0.length, E⟩ : Cluster)] =
      [⟨1, normalize e, 1 + rest0.length, E⟩] := rfl
  have hlen : (lines.filter fun l => is_errorish l).length = rest0.length + 1 := by
    rw [herrs]; simp
  refine ⟨⟨(lines.filter fun l => is_errorish l).length, 0,
      (sortClusters (clusterPass 0 ex (lines.filter fun l => is_errorish l))).take k⟩,
    rfl, ?_, ?_, rfl⟩
  · show ((sortClusters (clusterPass 0 ex
        (lines.filter fun l => is_errorish l))).take k).length = 1
    rw [hpass, hsort]
    cases k with
    | zero => omega
    | succ k' => simp
  · show ((sortClusters (clusterPass 0 ex
        (lines.filter fun l => is_errorish l))).take k).headI.count = _
    rw [hpass, hsort, hlen]
    cases k with
    | zero => omega
    | succ k' => simp; omega

theorem c1_threshold_zero_witness :
    ∃ r, cluster_errors (some ["error a", "error b"]) 0 10 3 = .ok r ∧
      r.clusters.length = 1 ∧
      r.clusters.headI.count = (["error a", "error b"].filter fun l =>
        is_errorish l).length ∧
      r.extracted_errorish = (["error a", "error b"].filter fun l =>
        is_errorish l).length :=
  c1_threshold_zero_amended ["error a", "error b"] 10 3 (by decide) (by decide)
    (by decide)

/-- Claim C4, refuted as stated: duplicates of an error-ish line can be
split across clusters.  Here the duplicated line first joins cluster 1 (its
best score 34/53 meets the threshold 3/5), a later line founds cluster 2
whose representative scores 42/61 against the duplicate's template, so the
second occurrence joins cluster 2 instead: the raw line ends up among the
examples of two distinct clusters. -/
theorem c4_counterexample :
    ((cluster_errors (some ["failed pppppppppp",
        "failed pppppppppp zzzzzzzzzzzzzzzzzz", "assert zzzzzzzzzzzzzzzzzz",
        "failed pppppppppp zzzzzzzzzzzzzzzzzz"]) (mkRat 3 5) 10 3).toOption.map
      fun r => (r.clusters.filter fun c =>
        c.examples.contains "failed pppppppppp zzzzzzzzzzzzzzzzzz").length) =
      some 2 := by decide

/-- Claim C4 (amended): the similarity of identical strings is exactly 1;
and for every threshold in (0,1] the clusterer keeps all occurrences of a
line in one cluster whenever the line's template equals the first error-ish
line's template (that template is cluster 1's fixed representative, which
uniquely scores 1): every such occurrence is counted into cluster 1, the
raw line never appears among any other cluster's examples, and — when the
example cap admits every error-ish line — each occurrence is also recorded
among cluster 1's examples.  Duplicates of a later line may be split across
clusters when their first occurrence is absorbed into a cluster with a
different representative. -/
theorem c4_identity_amended :
    (∀ s : String, similarity s s = 1) ∧
    ∀ (lines : List String) (θ : ℚ) (ex : Nat) (l : String),
      0 < θ → θ ≤ 1 →
      (lines.filter fun x => is_errorish x) ≠ [] →
      normalize l = normalize ((lines.filter fun x => is_errorish x).headI) →
      ∃ c1 rest, clusterPass θ ex (lines.filter fun x => is_errorish x) =
          c1 :: rest ∧
        c1.cluster_id = 1 ∧
        c1.rep = normalize ((lines.filter fun x => is_errorish x).headI) ∧
        ((lines.filter fun x => is_errorish x).filter fun s =>
          normalize s = normalize ((lines.filter fun x =>
            is_errorish x).headI)).length ≤ c1.count ∧
        (∀ c ∈ rest, l ∉ c.examples) ∧
        ((lines.filter fun x => is_errorish x).length ≤ ex →
          c1.examples.count l = (lines.filter fun x => is_errorish x).count l) := by
  refine ⟨similarity_self, ?_⟩
  intro lines θ ex l hθ0 hθ1 hne hl
  obtain ⟨e, rest0, herrs⟩ := List.exists_cons_of_ne_nil hne
  have hfirst : clusterStep θ ex [] e = [⟨1, normalize e, 1, [e]⟩] := by
    simp [clusterStep, bestScan]
  have hhead : (lines.filter fun x => is_errorish x).headI = e := by rw [herrs]; rfl
  have hln' : normalize l = normalize e := by rw [hl, hhead]
  have hinv : ∃ tpl, ClusterInv tpl [(⟨1, normalize e, 1, [e]⟩ : Cluster)] :=
    ⟨[normalize e], rfl, by simp, by simp⟩
  obtain ⟨c1', rest', h1, h2, h3, h4, h5⟩ :=
    clusterFold_count θ ex l (normalize e) hθ0 hθ1 hln' rest0
      ⟨1, normalize e, 1, [e]⟩ [] rfl rfl hinv (by simp)
  have h4' : 1 + (rest0.filter fun s => normalize s = normalize e).length ≤
      c1'.count := h4
  have hpass : clusterPass θ ex (lines.filter fun x => is_errorish x) =
      c1' :: rest' := by
    rw [herrs]
    show (e :: rest0).foldl (clusterStep θ ex) [] = _
    rw [List.foldl_cons, hfirst, h1]
  refine ⟨c1', rest', hpass, h2, ?_, ?_, h5, ?_⟩
  · rw [hhead]; exact h3
  · rw [hhead, herrs]
    simp only [List.filter_cons, decide_True, if_true, List.length_cons]
    omega
  · intro hcap
    have hcap' : 1 + rest0.length ≤ ex := by
      rw [herrs] at hcap; simp at hcap; omega
    obtain ⟨c1b, restb, hb1, _, _, hb4, _⟩ :=
      clusterFold_first θ ex l (normalize e) hθ0 hθ1 hln' rest0
        ⟨1, normalize e, 1, [e]⟩ [] 1 rfl rfl hinv (by simp) hcap' (by simp)
    have hcons : c1' :: rest' = c1b :: restb := h1.symm.trans hb1
    have hc : c1' = c1b := by injection hcons
    rw [hc, hb4, herrs]
    have hsplit : List.count l (e :: rest0) =
        List.count l [e] + List.count l rest0 := by
      simp [List.count_cons]
      omega
    rw [hsplit]

theorem c4_identity_amended_witness :
    similarity "x" "x" = 1 ∧
    ∃ c1 rest, clusterPass 1 2 (["error a", "error a"].filter fun x =>
        is_errorish x) = c1 :: rest ∧
      c1.cluster_id = 1 ∧
      c1.rep = normalize ((["error a", "error a"].filter fun x =>
        is_errorish x).headI) ∧
      ((["error a", "error a"].filter fun x => is_errorish x).filter fun s =>
        normalize s = normalize ((["error a", "error a"].filter fun x =>
          is_errorish x).headI)).length ≤ c1.count ∧
      (∀ c ∈ rest, "error a" ∉ c.examples) ∧
      ((["error a", "error a"].filter fun x => is_errorish x).length ≤ 2 →
        c1.examples.count "error a" = (["error a", "error a"].filter fun x =>
          is_errorish x).count "error a") :=
  ⟨c4_identity_amended.1 "x",
    c4_identity_amended.2 ["error a", "error a"] 1 2 "error a" zero_lt_one le_rfl
      (by decide) (by decide)⟩

/-- Claim C8, refuted as stated: normalization is not idempotent.  Masking
can expose a whole-word digit run that the first pass left alone: in
`"123http://x"` the run `123` is glued to `http` (no word boundary), the URL
step then rewrites the rest to `<URL>`, and a second pass masks `123` to
`<NUM>`. -/
theorem c8_counterexample :
    normalize (normalize "123http://x") ≠ normalize "123http://x" ∧
    normalize "123http://x" = "123<URL>" ∧
    normalize "123<URL>" = "<NUM><URL>" := by
  refine ⟨by decide, by decide, by decide⟩

/-- Claim C8 (amended): a template left unchanged by each of the seven
masking steps is a fixpoint of `normalize`; in general normalization is not
idempotent, because one pass can produce a string that a later step of a
second pass rewrites. -/
theorem c8_fixpoint_amended (t : String) (h1 : tsStep t = t)
    (h2 : levelStep t = t) (h3 : hexStep t = t) (h4 : numStep t = t)
    (h5 : urlStep t = t) (h6 : pathStep t = t) (h7 : wsStep t = t) :
    normalize t = t := by
  show wsStep (pathStep (urlStep (numStep (hexStep (levelStep (tsStep t)))))) = t
  rw [h1, h2, h3, h4, h5, h6, h7]

theorem c8_fixpoint_witness : normalize "<TS> <LEVEL> x" = "<TS> <LEVEL> x" :=
  c8_fixpoint_amended "<TS> <LEVEL> x" (by decide) (by decide) (by decide)
    (by decide) (by decide) (by decide) (by decide)
